import Mathlib

/-!
# brainfuck-interpreter.c : a shallow embedding and its checked properties

The C program keeps its whole machine in global variables.  The embedding
turns them into the fields of one record, `Etat`, and every C function into
a Lean function over that record.

Conventions of the embedding
* characters of the line buffer and bytes of the input stream are natural
  numbers (their byte value); the C type `char` is taken signed, as it is on
  the x86 targets the program is built for, see `toChar`;
* `ligne` is the content of the buffer `ligne[MAX_LIGNE]`; a read beyond the
  end of the list gives the NUL byte (the buffer is zero initialised and
  `fgets` always writes a terminating NUL);
* `matrice` and `stack` are total maps from C `int` indices; the indices
  `0 .. MAX_CASES-1` (resp. `0 .. STACK_MAX-1`) are the C arrays, any other
  index lies outside the array in C;
* `stdin` is the list of the bytes not yet read, end of file after them; as
  in the program, `fgets` (the lines) and `getchar` (the input of `,`) take
  their bytes from that same stream;
* `stdout` and `stderr` are the lists of what was written, oldest first;
* a loop of the program that may run for ever is either given a number of
  turns (`yyparse`, `main_boucle`), the result being `none` when they do not
  suffice, or, for the loop emptying `stdin`, decided on the bytes left
  (`vider`).
-/

namespace Bfi

/-! ## Macros and character codes -/

/-- Macro `#define MAX_CASES 30000`. -/
def MAX_CASES : Int := 30000

/-- Macro `#define MAX_LIGNE 4096`. -/
def MAX_LIGNE : Nat := 4096

/-- Macro `#define STACK_MAX 8`. -/
def STACK_MAX : Int := 8

/-- Value of `EOF` in `<stdio.h>`. -/
def EOF : Int := -1

/-- Code of the NUL character. -/
def NUL : Nat := 0
/-- Code of `'\n'`. -/
def NL : Nat := 10
/-- Code of `'+'`. -/
def PLUS : Nat := 43
/-- Code of `','`. -/
def VIRGULE : Nat := 44
/-- Code of `'-'`. -/
def MOINS : Nat := 45
/-- Code of `'.'`. -/
def POINT : Nat := 46
/-- Code of `'<'`. -/
def GAUCHE : Nat := 60
/-- Code of `'>'`. -/
def DROITE : Nat := 62
/-- Code of `'['`. -/
def LBRA : Nat := 91
/-- Code of `']'`. -/
def RBRA : Nat := 93

/-- Global `char *ops = "><+-,.]["` : the accepted operators. -/
def ops : List Nat := [DROITE, GAUCHE, PLUS, MOINS, VIRGULE, POINT, RBRA, LBRA]

/-- The byte codes of a text, to write lines as strings. -/
def codes (t : String) : List Nat := t.toList.map Char.toNat

/-! ## Data model -/

/-- Type `struct Block { int debut; int fin; }`; only line positions, which
are never negative, are stored in it. -/
structure block where
  debut : Nat
  fin : Nat
deriving DecidableEq

/-- What the program writes on the standard output. -/
inductive Sortie where
  /-- Written by `putchar(matrice[curseur])`. -/
  | octet (b : Nat)
  /-- Written by `printf("\t<? INPUT [%i]> ", curseur)`. -/
  | invite (curseur : Int)
  /-- Written by the two `printf` at the start of `main`. -/
  | titre
  /-- Written by `printf("\n<C:[%i] V:[%i] BFI> ", curseur, matrice[curseur])`. -/
  | attente (curseur : Int) (valeur : Nat)
deriving DecidableEq

/-- The two messages given to `warning`. -/
inductive Avertissement where
  /-- Message "Valeur de la case hors limite ASCII". -/
  | caseHorsLimite
  /-- Message "Déplacement du curseur hors limite". -/
  | curseurHorsLimite
deriving DecidableEq

/-- The three calls of `erreur`, with the integer each one prints. -/
inductive Erreur where
  /-- Message "Error : missing ']' for '[' at index : %i". -/
  | crochetFermantManquant (index : Nat)
  /-- Message "Error : Stack overflow, limit '[...]' to : %i". -/
  | pilePleine (limite : Int)
  /-- Message "Error: missing '[' before ']' at index : %i". -/
  | crochetOuvrantManquant (index : Nat)
deriving DecidableEq

/-- The global variables of the program, and the three standard streams. -/
structure Etat where
  /-- Global `char ligne[MAX_LIGNE]`. -/
  ligne : List Nat
  /-- Global `int indexligne`; it is never negative. -/
  indexligne : Nat
  /-- Global `unsigned char matrice[MAX_CASES]`. -/
  matrice : Int → Nat
  /-- Global `int curseur`. -/
  curseur : Int
  /-- Global `block stack[STACK_MAX]`. -/
  stack : Int → block
  /-- Global `int headstack`. -/
  headstack : Int
  /-- Bytes of the standard input not read yet. -/
  stdin : List Nat
  /-- What was written on the standard output. -/
  stdout : List Sortie
  /-- Warnings written on the standard error. -/
  stderr : List Avertissement

/-- Read of `ligne[i]`. -/
def car (ligne : List Nat) (i : Nat) : Nat := ligne.getD i NUL

/-- Assignment `a[i] = v` on an array seen as a map. -/
def ecrire {α : Type} (a : Int → α) (i : Int) (v : α) : Int → α :=
  fun j => if j = i then v else a j

/-- The state at program start: all globals as initialised in the source,
`ligne` and `stdin` given. -/
def initial (ligne : List Nat) (stdin : List Nat) : Etat :=
  { ligne := ligne, indexligne := 0, matrice := fun _ => 0, curseur := 0,
    stack := fun _ => ⟨0, 0⟩, headstack := -1,
    stdin := stdin, stdout := [], stderr := [] }

/-! ## find_lbark -/

/-- The `while` loop of `find_lbark`, run over the characters from
`tmpindex` on: `ignoresub` is the nesting depth, the result is the index
returned, `0` when the NUL is met first. -/
def find_lbark_boucle : List Nat → Nat → Int → Nat
  | [], _, _ => 0
  | c :: reste, tmpindex, ignoresub =>
    if c = NUL then 0
    else
      let ignoresub1 := if c = LBRA then ignoresub + 1 else ignoresub
      if c = RBRA then
        if ignoresub1 - 1 = 0 then tmpindex
        else find_lbark_boucle reste (tmpindex + 1) (ignoresub1 - 1)
      else find_lbark_boucle reste (tmpindex + 1) ignoresub1

/-- Function `int find_lbark(void)` : index of the `]` that closes the loop whose
`[` was just read, `0` when there is none. -/
def find_lbark (s : Etat) : Nat :=
  find_lbark_boucle (s.ligne.drop s.indexligne) s.indexligne 1

/-! ## yylex -/

/-- Test `strchr(ops, c) != NULL` : true for the eight operators and, as `strchr`
also finds the terminator of `ops`, for the NUL character. -/
def strchr_ops (c : Nat) : Bool := decide (c ∈ ops) || decide (c = NUL)

/-- The loop `while (!(strchr(ops, ligne[indexligne]))) indexligne++;`
run over the characters from `indexligne` on: the index where it stops. -/
def yylex_boucle : List Nat → Nat → Nat
  | [], indexligne => indexligne
  | c :: reste, indexligne =>
    if strchr_ops c then indexligne else yylex_boucle reste (indexligne + 1)

/-- Function `int yylex(void)` : the value returned and the new state
(only `indexligne` changes). -/
def yylex (s : Etat) : Nat × Etat :=
  if car s.ligne s.indexligne = NL then (0, s)
  else
    let j := yylex_boucle (s.ligne.drop s.indexligne) s.indexligne
    (car s.ligne j, { s with indexligne := j + 1 })

/-! ## Standard input -/

/-- Conversion of an `int` to `char` (signed, 8 bits), as done by the
assignment `c = getchar()`. -/
def toChar (v : Int) : Int := (v + 128) % 256 - 128

/-- Conversion of a `char` to `unsigned char`, as done by the assignment
`matrice[curseur] = c`. -/
def toUChar (c : Int) : Nat := (c % 256).toNat

/-- Call `getchar()` : the value returned and the bytes left. -/
def getchar : List Nat → Int × List Nat
  | [] => (EOF, [])
  | b :: reste => ((b : Int), reste)

/-- Call `ungetc(c, stdin)` : the byte is the next one read. -/
def ungetc (c : Nat) (stdin : List Nat) : List Nat := c :: stdin

/-- The loop `do { c = getchar(); } while (c != '\n');` : the bytes left
when it ends, `none` when it never ends (at end of file `getchar` returns
`EOF` at every call, and `EOF` is not `'\n'`). -/
def vider : List Nat → Option (List Nat)
  | [] => none
  | b :: reste => if toChar (b : Int) = (NL : Int) then some reste else vider reste

/-! ## yyparse -/

/-- How one turn of the `while (1)` loop of `yyparse` ends. -/
inductive Issue where
  /-- A `break` of the `switch`: the loop goes on. -/
  | suite (s : Etat)
  /-- The `return 0` of `case 0`. -/
  | retour (s : Etat)
  /-- A call of `erreur`, which ends the process by `exit(1)`. -/
  | fatal (e : Erreur) (s : Etat)
  /-- The loop that empties `stdin` never ends. -/
  | bloque (s : Etat)

/-- The `switch` of `yyparse` on the value `tok` returned by `yylex`, in the
state `s` left by `yylex`. -/
def yyparse_switch (tok : Nat) (s : Etat) : Issue :=
  if tok = PLUS then
    if s.matrice s.curseur ≥ 127 then
      .suite { s with stderr := s.stderr ++ [.caseHorsLimite] }
    else .suite { s with matrice := ecrire s.matrice s.curseur (s.matrice s.curseur + 1) }
  else if tok = MOINS then
    if s.matrice s.curseur ≤ 0 then
      .suite { s with stderr := s.stderr ++ [.caseHorsLimite] }
    else .suite { s with matrice := ecrire s.matrice s.curseur (s.matrice s.curseur - 1) }
  else if tok = DROITE then
    if s.curseur ≥ MAX_CASES then
      .suite { s with stderr := s.stderr ++ [.curseurHorsLimite] }
    else .suite { s with curseur := s.curseur + 1 }
  else if tok = GAUCHE then
    if s.curseur ≤ 0 then
      .suite { s with stderr := s.stderr ++ [.curseurHorsLimite] }
    else .suite { s with curseur := s.curseur - 1 }
  else if tok = VIRGULE then
    let s1 : Etat := { s with stdout := s.stdout ++ [.invite s.curseur] }
    let c := toChar (getchar s1.stdin).1
    let reste := (getchar s1.stdin).2
    let s2 : Etat :=
      if c = EOF then
        { s1 with matrice := ecrire s1.matrice s1.curseur 0, stdin := ungetc NL reste }
      else
        { s1 with matrice := ecrire s1.matrice s1.curseur (toUChar c), stdin := reste }
    match vider s2.stdin with
    | none => .bloque { s2 with stdin := [] }
    | some reste2 => .suite { s2 with stdin := reste2 }
  else if tok = POINT then
    .suite { s with stdout := s.stdout ++ [.octet (s.matrice s.curseur)] }
  else if tok = LBRA then
    let tmpfin := find_lbark s
    if tmpfin = 0 then .fatal (.crochetFermantManquant (s.indexligne - 1)) s
    else if s.matrice s.curseur = 0 then .suite { s with indexligne := tmpfin + 1 }
    else if s.headstack ≥ 0 ∧ (s.stack s.headstack).debut = s.indexligne - 1 then .suite s
    else if s.headstack ≥ STACK_MAX then .fatal (.pilePleine STACK_MAX) s
    else
      .suite { s with headstack := s.headstack + 1,
                      stack := ecrire s.stack (s.headstack + 1) ⟨s.indexligne - 1, tmpfin⟩ }
  else if tok = RBRA then
    if s.headstack < 0 then .fatal (.crochetOuvrantManquant (s.indexligne - 1)) s
    else if s.matrice s.curseur ≠ 0 then
      .suite { s with indexligne := (s.stack s.headstack).debut }
    else .suite { s with headstack := s.headstack - 1 }
  else if tok = 0 then .retour s
  else .suite s

/-- One turn of the `while (1)` loop of `yyparse`: a call of `yylex` and the
`switch` on the value it returns. -/
def yyparse_tour (s : Etat) : Issue :=
  yyparse_switch (yylex s).1 (yylex s).2

/-- What a run of `yyparse` gives. -/
inductive Fin where
  /-- The function returned: the line is done. -/
  | retour (s : Etat)
  /-- The process was ended by `erreur`. -/
  | fatal (e : Erreur) (s : Etat)
  /-- The process stays for ever in the loop that empties `stdin`. -/
  | bloque (s : Etat)

/-- Function `int yyparse(void)` : at most `n` turns of its `while (1)` loop;
`none` when the loop is still running after `n` turns. -/
def yyparse : Nat → Etat → Option Fin
  | 0, _ => none
  | n + 1, s =>
    match yyparse_tour s with
    | .suite s1 => yyparse n s1
    | .retour s1 => some (.retour s1)
    | .fatal e s1 => some (.fatal e s1)
    | .bloque s1 => some (.bloque s1)

/-- The first `n` turns of the `while (1)` loop of `yyparse`: how the last of
them ends, or the first one that does not end by `break`. -/
def tours : Nat → Etat → Issue
  | 0, s => .suite s
  | n + 1, s =>
    match yyparse_tour s with
    | .suite s1 => tours n s1
    | r => r

/-! ## main -/

/-- The bytes that `fgets` takes from `stdin` when it may store `n` of them:
it stops after the first `'\n'`, at end of file, or when `n` bytes are
taken.  The result is the bytes taken and the bytes left. -/
def fgets_lire : Nat → List Nat → List Nat × List Nat
  | 0, reste => ([], reste)
  | _ + 1, [] => ([], [])
  | n + 1, b :: reste =>
    if b = NL then ([b], reste)
    else (b :: (fgets_lire n reste).1, (fgets_lire n reste).2)

/-- Call `fgets(ligne, sizeof ligne, stdin)` : `none` when it returns `NULL`
(end of file, nothing read); otherwise the bytes taken and a NUL are written
at the start of `ligne`, whose further content stays. -/
def fgets (s : Etat) : Option Etat :=
  match s.stdin with
  | [] => none
  | _ :: _ =>
    some { s with
      ligne := (fgets_lire (MAX_LIGNE - 1) s.stdin).1 ++
        NUL :: s.ligne.drop ((fgets_lire (MAX_LIGNE - 1) s.stdin).1.length + 1),
      stdin := (fgets_lire (MAX_LIGNE - 1) s.stdin).2 }

/-- The `while (1)` loop of `main`, for at most `k` lines, each call of
`yyparse` getting `n` turns: prompt, `fgets`, `indexligne = 0`, then `break`
at end of file or `yyparse()`.  The result is `none` when the loop is still
running after that. -/
def main_boucle (n : Nat) : Nat → Etat → Option Fin
  | 0, _ => none
  | k + 1, s =>
    match fgets { s with stdout := s.stdout ++ [.attente s.curseur (s.matrice s.curseur)] } with
    | none =>
      some (.retour { s with
        stdout := s.stdout ++ [.attente s.curseur (s.matrice s.curseur)], indexligne := 0 })
    | some s1 =>
      match yyparse n { s1 with indexligne := 0 } with
      | some (.retour s2) => main_boucle n k s2
      | r => r

/-- Function `int main(int argc, char* argv[])` run without argument, on the
bytes `entree` of its standard input. -/
def main (n k : Nat) (entree : List Nat) : Option Fin :=
  main_boucle n k { initial [] entree with stdout := [.titre] }

/-! ## Textual bracket matching (the words of the specification) -/

/-- The text strictly between the positions `p` and `q` of a line. -/
def entre (ligne : List Nat) (p q : Nat) : List Nat :=
  (ligne.drop (p + 1)).take (q - (p + 1))

/-- A balanced text: as many `[` as `]`, and no prefix with more `]` than `[`. -/
def equilibre (t : List Nat) : Prop :=
  t.count LBRA = t.count RBRA ∧
    ∀ k, k < t.length + 1 → (t.take k).count RBRA ≤ (t.take k).count LBRA

instance (t : List Nat) : Decidable (equilibre t) := by
  unfold equilibre; infer_instance

/-- Position `q` holds the loop-close that textually corresponds to the
loop-open at position `p`: `q` is after `p`, inside the same NUL-terminated
line, holds `]`, and the text strictly between `p` and `q` is balanced. -/
def ferme (ligne : List Nat) (p q : Nat) : Prop :=
  p < q ∧ car ligne q = RBRA ∧ NUL ∉ entre ligne p q ∧ equilibre (entre ligne p q)

instance (ligne : List Nat) (p q : Nat) : Decidable (ferme ligne p q) := by
  unfold ferme; infer_instance

/-- Excess of `[` over `]` in a text. -/
def solde (t : List Nat) : Int := (t.count LBRA : Int) - (t.count RBRA : Int)


/-- The loop `do { c = getchar(); } while (c != '\n');` written with its calls
of `getchar`, for at most `n` turns: the bytes left when it ends, `none` when
it is still running after `n` turns. -/
def vider_tours : Nat → List Nat → Option (List Nat)
  | 0, _ => none
  | n + 1, stdin =>
    if toChar (getchar stdin).1 ≠ (NL : Int) then vider_tours n (getchar stdin).2
    else some (getchar stdin).2

/-! ## Lines as `fgets` leaves them, and nesting levels -/

/-- Length of the NUL-terminated text held by the buffer (`strlen(ligne)`):
the index of its first NUL. -/
def strlen : List Nat → Nat
  | [] => 0
  | c :: reste => if c = NUL then 0 else strlen reste + 1

/-- A line as `fgets` stores it: the end-of-line marker occurs in the
NUL-terminated text at most as its last character. -/
def ligneValide (l : List Nat) : Prop :=
  ∀ k, k < strlen l - 1 → car l k ≠ NL

instance (l : List Nat) : Decidable (ligneValide l) := by
  unfold ligneValide; infer_instance

/-- What a character adds to the nesting level: `+1` for `[`, `-1` for `]`. -/
def delta (c : Nat) : Int := (if c = LBRA then 1 else 0) - (if c = RBRA then 1 else 0)

/-- Nesting level at position `x` of a line: excess of `[` over `]` among the
characters before `x`. -/
def niveau (l : List Nat) (x : Nat) : Int := solde (l.take x)

/-- A frame of the loop stack that describes a loop of the line: `debut`
holds a `[`, `fin` holds the `]`, inside the NUL-terminated text, that brings
the level back, the level staying above in between. -/
def cadreValide (l : List Nat) (b : block) : Prop :=
  b.debut < b.fin ∧ b.fin < strlen l ∧ car l b.debut = LBRA ∧ car l b.fin = RBRA ∧
    niveau l b.fin = niveau l b.debut + 1 ∧
    ∀ x, b.debut < x → x ≤ b.fin → niveau l b.debut + 1 ≤ niveau l x

/-- The loop stack `S`, with top index `h`, describes the loops of the line
`l` that enclose the scan position `i` : every frame in use describes a loop
of the line, each one directly inside the one below it, and the scan
position, inside the text, is inside the top one, or on its `[` with a
non-zero current cell (just after a jump back). -/
def pileValideC (l : List Nat) (i : Nat) (S : Int → block) (h : Int) (nonNul : Prop) : Prop :=
  -1 ≤ h ∧ i ≤ strlen l ∧
  (∀ k : Int, 0 ≤ k → k ≤ h → cadreValide l (S k)) ∧
  (∀ k : Int, 0 ≤ k → k < h →
    (S k).debut < (S (k + 1)).debut ∧ (S (k + 1)).fin < (S k).fin ∧
      niveau l (S (k + 1)).debut = niveau l (S k).debut + 1) ∧
  (0 ≤ h →
    (i = (S h).debut ∧ nonNul) ∨
    ((S h).debut < i ∧ i ≤ (S h).fin ∧ niveau l i = niveau l (S h).debut + 1))

/-- The loop stack of the state describes the loops that enclose its scan
position. -/
def pileValide (s : Etat) : Prop :=
  pileValideC s.ligne s.indexligne s.stack s.headstack (s.matrice s.curseur ≠ 0)

/-! ## Reads of the line buffer -/

/-- Greatest index at which `yylex` reads `ligne` : the scan position when it
holds the end-of-line marker, otherwise the index where the skip loop stops
(the loop reads every index from the scan position to that one, and the
assignment of `yylval` reads that one again). -/
def yylex_lu (s : Etat) : Nat :=
  if car s.ligne s.indexligne = NL then s.indexligne
  else yylex_boucle (s.ligne.drop s.indexligne) s.indexligne

/-- Greatest index read by the `while` loop of `find_lbark`, which reads every
index from `tmpindex` on until it returns: the index of the `]` returned or
of the NUL that ends the loop. -/
def find_lbark_lu_boucle : List Nat → Nat → Int → Nat
  | [], tmpindex, _ => tmpindex
  | c :: reste, tmpindex, ignoresub =>
    if c = NUL then tmpindex
    else
      let ignoresub1 := if c = LBRA then ignoresub + 1 else ignoresub
      if c = RBRA then
        if ignoresub1 - 1 = 0 then tmpindex
        else find_lbark_lu_boucle reste (tmpindex + 1) (ignoresub1 - 1)
      else find_lbark_lu_boucle reste (tmpindex + 1) ignoresub1

/-- Greatest index at which `find_lbark` reads `ligne`. -/
def find_lbark_lu (s : Etat) : Nat :=
  find_lbark_lu_boucle (s.ligne.drop s.indexligne) s.indexligne 1

/-- Greatest index at which one turn of the loop of `yyparse` reads `ligne` :
`yylex` reads, then `find_lbark` when the token is `[`; no other case of the
`switch` reads the line. -/
def tour_lu (s : Etat) : Nat :=
  if (yylex s).1 = LBRA then max (yylex_lu s) (find_lbark_lu (yylex s).2) else yylex_lu s

/-- Greatest index at which the first `n` turns of the loop of `yyparse` read
`ligne`. -/
def yyparse_lu : Nat → Etat → Nat
  | 0, _ => 0
  | n + 1, s =>
    match yyparse_tour s with
    | .suite s1 => max (tour_lu s) (yyparse_lu n s1)
    | _ => tour_lu s

/-- The scan position and the starts of the frames in use are positions of
the NUL-terminated text. -/
def positionsValides (s : Etat) : Prop :=
  s.indexligne ≤ strlen s.ligne ∧
    ∀ k : Int, 0 ≤ k → k ≤ s.headstack → (s.stack k).debut < strlen s.ligne

/-! ## Lines without their inert characters -/

/-- The text of a line without its characters that are not operators. -/
def sansInertes (texte : List Nat) : List Nat := texte.filter (fun c => decide (c ∈ ops))

/-- Number of operators before position `x` of a text: the position, in the
text without inert characters, of what is at `x`. -/
def phi (texte : List Nat) (x : Nat) : Nat := (sansInertes (texte.take x)).length

/-- Same tape, cursor, standard streams and top of loop stack. -/
def memeObs (u v : Etat) : Prop :=
  u.matrice = v.matrice ∧ u.curseur = v.curseur ∧ u.stdin = v.stdin ∧ u.stdout = v.stdout ∧
    u.stderr = v.stderr ∧ u.headstack = v.headstack

/-- Same kind of fatal error (the index printed apart). -/
def memeSorte : Erreur → Erreur → Prop
  | .crochetFermantManquant _, .crochetFermantManquant _ => True
  | .pilePleine a, .pilePleine b => a = b
  | .crochetOuvrantManquant _, .crochetOuvrantManquant _ => True
  | _, _ => False

/-- Same outcome of two runs of `yyparse` : both still running, or both ended
the same way, with the same kind of error if any, in states with the same
tape, cursor, streams and top of loop stack. -/
def memeFin : Option Fin → Option Fin → Prop
  | none, none => True
  | some (.retour u), some (.retour v) => memeObs u v
  | some (.fatal e u), some (.fatal f v) => memeSorte e f ∧ memeObs u v
  | some (.bloque u), some (.bloque v) => memeObs u v
  | _, _ => False

/-- The state `v`, on the text without inert characters, corresponds to the
state `u` on the text: same tape, cursor, streams and top of loop stack,
and the scan position and the start of every frame in use of `v` are those
of `u` counted in operators. -/
def simule (texte : List Nat) (u v : Etat) : Prop :=
  memeObs u v ∧ u.indexligne ≤ texte.length ∧ v.indexligne = phi texte u.indexligne ∧
    ∀ k : Int, 0 ≤ k → k ≤ u.headstack →
      (u.stack k).debut < texte.length ∧ car texte (u.stack k).debut ∈ ops ∧
        (v.stack k).debut = phi texte (u.stack k).debut

/-- Two turns that end the same way: by `break` in corresponding states, or
by the same `return`, call of `erreur` or endless loop, in states with the
same tape, cursor, streams and top of loop stack. -/
def simuleIssue (texte : List Nat) : Issue → Issue → Prop
  | .suite u, .suite v => simule texte u v
  | .retour u, .retour v => memeObs u v
  | .fatal e u, .fatal f v => memeSorte e f ∧ memeObs u v
  | .bloque u, .bloque v => memeObs u v
  | _, _ => False

/-! # Theorems -/

/-! ## Bracket matching -/

theorem solde_nil : solde [] = 0 := by simp [solde]

theorem solde_cons (c : Nat) (t : List Nat) :
    solde (c :: t) = (if c = LBRA then 1 else 0) - (if c = RBRA then 1 else 0) + solde t := by
  unfold solde
  simp only [List.count_cons]
  have h1 : (c == LBRA) = decide (c = LBRA) := rfl
  have h2 : (c == RBRA) = decide (c = RBRA) := rfl
  rw [h1, h2]
  by_cases a : c = LBRA <;> by_cases b : c = RBRA <;> simp [a, b] <;> omega

/-- The loop of `find_lbark` stops on the `]` that brings the depth to 0. -/
theorem find_lbark_boucle_trouve (t reste : List Nat) :
    ∀ (i : Nat) (d : Int), NUL ∉ t →
      (∀ k, k ≤ t.length → 1 ≤ d + solde (t.take k)) → d + solde t = 1 →
      find_lbark_boucle (t ++ RBRA :: reste) i d = i + t.length := by
  induction t with
  | nil =>
    intro i d _ _ h
    have hd : d = 1 := by simpa [solde_nil] using h
    simp [find_lbark_boucle, hd, RBRA, NUL, LBRA]
  | cons c t ih =>
    intro i d hnul hpre hfin
    have hc : c ≠ NUL := fun h => hnul (by simp [h])
    have hnul2 : NUL ∉ t := fun h => hnul (by simp [h])
    have h1 := hpre 1 (by simp)
    simp only [List.take_succ_cons, List.take_zero, solde_cons, solde_nil] at h1
    have hpre2 : ∀ k, k ≤ t.length →
        1 ≤ d + ((if c = LBRA then 1 else 0) - (if c = RBRA then 1 else 0)) + solde (t.take k) := by
      intro k hk
      have := hpre (k + 1) (by simpa using hk)
      simp only [List.take_succ_cons, solde_cons] at this
      omega
    rw [solde_cons] at hfin
    simp only [List.cons_append, find_lbark_boucle, if_neg hc, List.length_cons, List.append_eq]
    by_cases a : c = LBRA
    · have b : ¬ c = RBRA := by rw [a]; decide
      simp only [a, b, if_true, if_false] at hpre2 hfin ⊢
      simp only [show ¬ LBRA = RBRA by decide, if_false]
      rw [ih (i + 1) (d + 1) hnul2 (by intro k hk; have := hpre2 k hk; omega) (by omega)]
      omega
    · by_cases b : c = RBRA
      · simp only [a, b, if_true, if_false] at hpre2 hfin h1 ⊢
        simp only [show ¬ RBRA = LBRA by decide, if_false] at hpre2 hfin h1 ⊢
        have hne : ¬ d - 1 = 0 := by omega
        rw [if_neg hne, ih (i + 1) (d - 1) hnul2 (by intro k hk; have := hpre2 k hk; omega) (by omega)]
        omega
      · simp only [a, b, if_false] at hpre2 hfin ⊢
        rw [ih (i + 1) d hnul2 (by intro k hk; have := hpre2 k hk; omega) (by omega)]
        omega

/-- The loop of `find_lbark` either returns 0 or stops on a `]` before which
the depth never came back to 0. -/
theorem find_lbark_boucle_cas (cs : List Nat) :
    ∀ (i : Nat) (d : Int), 1 ≤ d →
      find_lbark_boucle cs i d = 0 ∨
      ∃ t reste, cs = t ++ RBRA :: reste ∧ NUL ∉ t ∧
        (∀ k, k ≤ t.length → 1 ≤ d + solde (t.take k)) ∧ d + solde t = 1 ∧
        find_lbark_boucle cs i d = i + t.length := by
  induction cs with
  | nil => intro i d _; left; rfl
  | cons c cs ih =>
    intro i d hd
    by_cases hc : c = NUL
    · left; simp [find_lbark_boucle, hc]
    · have e1 : ¬ LBRA = NUL := by decide
      have e2 : ¬ LBRA = RBRA := by decide
      have e3 : ¬ RBRA = NUL := by decide
      have e4 : ¬ RBRA = LBRA := by decide
      have step : ∀ d2 : Int, 1 ≤ d2 →
          d2 = d + ((if c = LBRA then 1 else 0) - (if c = RBRA then 1 else 0)) →
          find_lbark_boucle (c :: cs) i d = find_lbark_boucle cs (i + 1) d2 →
          find_lbark_boucle (c :: cs) i d = 0 ∨
          ∃ t reste, c :: cs = t ++ RBRA :: reste ∧ NUL ∉ t ∧
            (∀ k, k ≤ t.length → 1 ≤ d + solde (t.take k)) ∧ d + solde t = 1 ∧
            find_lbark_boucle (c :: cs) i d = i + t.length := by
        intro d2 hd2 hdef heq
        rcases ih (i + 1) d2 hd2 with h0 | ⟨t, reste, hcs, hnul, hpre, hfin, hres⟩
        · left; rw [heq, h0]
        · right
          refine ⟨c :: t, reste, by simp [hcs], ?_, ?_, ?_, ?_⟩
          · intro h
            rcases List.mem_cons.1 h with h | h
            · exact hc h.symm
            · exact hnul h
          · intro k hk
            cases k with
            | zero => simpa [solde_nil] using hd
            | succ k =>
              have := hpre k (by simpa using hk)
              simp only [List.take_succ_cons, solde_cons]
              omega
          · rw [solde_cons]; omega
          · rw [heq, hres, List.length_cons]; omega
      by_cases a : c = LBRA
      · have b : ¬ c = RBRA := by rw [a]; decide
        exact step (d + 1) (by omega) (by simp [a, e2])
          (by simp [find_lbark_boucle, a, e1, e2])
      · by_cases b : c = RBRA
        · by_cases hz : d - 1 = 0
          · right
            refine ⟨[], cs, by simp [b], by simp, ?_, ?_, ?_⟩
            · intro k hk
              have : k = 0 := by simpa using hk
              simpa [this, solde_nil] using hd
            · simp [solde_nil]; omega
            · simp [find_lbark_boucle, b, e3, e4, hz]
          · exact step (d - 1) (by omega) (by simp [b, e4]; omega)
              (by simp [find_lbark_boucle, b, e3, e4, hz])
        · exact step d hd (by simp [a, b]) (by simp [find_lbark_boucle, hc, a, b])

theorem equilibre_iff_solde (t : List Nat) :
    equilibre t ↔ solde t = 0 ∧ ∀ k, k ≤ t.length → 0 ≤ solde (t.take k) := by
  unfold equilibre solde
  constructor
  · rintro ⟨h1, h2⟩
    refine ⟨by omega, fun k hk => ?_⟩
    have := h2 k (by omega)
    omega
  · rintro ⟨h1, h2⟩
    refine ⟨by omega, fun k hk => ?_⟩
    have := h2 k (by omega)
    omega

/-- A matching closer splits the rest of the line after `[`. -/
theorem ferme_decoupe (ligne : List Nat) (p q : Nat) (h : ferme ligne p q) :
    ligne.drop (p + 1) = entre ligne p q ++ RBRA :: ligne.drop (q + 1) ∧
      (entre ligne p q).length = q - (p + 1) := by
  obtain ⟨hpq, hq, _, _⟩ := h
  have hlen : q < ligne.length := by
    by_contra hcon
    have : car ligne q = NUL := by
      unfold car
      rw [List.getD_eq_default _ _ (by omega)]
    rw [this] at hq
    exact absurd hq (by decide)
  have hqv : ligne[q] = RBRA := by
    have : car ligne q = ligne[q] := by
      unfold car
      rw [List.getD_eq_getElem _ _ hlen]
    rw [← this]; exact hq
  constructor
  · unfold entre
    conv_lhs => rw [← List.take_append_drop (q - (p + 1)) (ligne.drop (p + 1))]
    congr 1
    rw [List.drop_drop, show p + 1 + (q - (p + 1)) = q by omega]
    rw [List.drop_eq_getElem_cons hlen, hqv]
  · unfold entre
    rw [List.length_take, List.length_drop]
    omega


/-- On a balanced text the depth, started at 1, stays at least 1 and ends at 1. -/
theorem find_lbark_of_ferme (s : Etat) (p q : Nat) (hidx : s.indexligne = p + 1)
    (h : ferme s.ligne p q) : find_lbark s = q := by
  obtain ⟨hdec, hlen⟩ := ferme_decoupe s.ligne p q h
  obtain ⟨hpq, _, hnul, heq⟩ := h
  obtain ⟨hs0, hspre⟩ := (equilibre_iff_solde _).1 heq
  unfold find_lbark
  rw [hidx, hdec, find_lbark_boucle_trouve _ _ _ _ hnul
    (by intro k hk; have := hspre k hk; omega) (by omega), hlen]
  omega

/-- A non-zero result of `find_lbark` is the matching closer. -/
theorem ferme_of_find_lbark (s : Etat) (p : Nat) (hidx : s.indexligne = p + 1)
    (h : find_lbark s ≠ 0) : ferme s.ligne p (find_lbark s) := by
  unfold find_lbark at h ⊢
  rw [hidx] at h ⊢
  rcases find_lbark_boucle_cas (s.ligne.drop (p + 1)) (p + 1) 1 (le_refl _) with
    h0 | ⟨t, reste, hcs, hnul, hpre, hfin, hres⟩
  · exact absurd h0 h
  · rw [hres]
    have hent : entre s.ligne p (p + 1 + t.length) = t := by
      unfold entre
      rw [hcs, show p + 1 + t.length - (p + 1) = t.length by omega, List.take_left]
    have hcar : car s.ligne (p + 1 + t.length) = RBRA := by
      have e : car s.ligne (p + 1 + t.length) = (s.ligne.drop (p + 1)).getD t.length NUL := by
        unfold car
        simp [List.getD_eq_getElem?_getD, List.getElem?_drop]
      rw [e, hcs, List.getD_eq_getElem?_getD, List.getElem?_append_right (le_refl _)]
      simp
    refine ⟨by omega, hcar, by rw [hent]; exact hnul, ?_⟩
    rw [hent, equilibre_iff_solde]
    exact ⟨by omega, fun k hk => by have := hpre k hk; omega⟩

/-- C1: when `find_lbark` is called with the scan position just after a
loop-open at `p`, and `q` is the textually corresponding loop-close (after
`p`, inside the line, with a balanced text between them), it returns `q`;
and no other position corresponds to `p`, so the closer of an enclosing or
of a nested loop is never returned. -/
theorem find_lbark_correct (s : Etat) (p q : Nat) (hp : car s.ligne p = LBRA)
    (hidx : s.indexligne = p + 1) (hq : ferme s.ligne p q) :
    find_lbark s = q ∧ (∀ r, ferme s.ligne p r → r = q) ∧
      (∀ r, p < r → r < q → ¬ ferme s.ligne p r) := by
  have _ := hp
  have hres := find_lbark_of_ferme s p q hidx hq
  have huniq : ∀ r, ferme s.ligne p r → r = q := fun r hr =>
    (find_lbark_of_ferme s p r hidx hr).symm.trans hres
  exact ⟨hres, huniq, fun r _ hlt hr => absurd (huniq r hr) (by omega)⟩

/-- C1, on the line `++[>[-]<[->+<]]` : the loop opened at 2 is closed at 14,
not at 6 nor at 13. -/
theorem find_lbark_correct_witness :
    car (codes "++[>[-]<[->+<]]\n") 2 = LBRA ∧
    ferme (codes "++[>[-]<[->+<]]\n") 2 14 ∧
    find_lbark { initial (codes "++[>[-]<[->+<]]\n") [] with indexligne := 3 } = 14 :=
  ⟨by decide, by decide,
   (find_lbark_correct { initial (codes "++[>[-]<[->+<]]\n") [] with indexligne := 3 }
      2 14 (by decide) rfl (by decide)).1⟩


/-! ## The dispatcher, token by token -/

/-- Function `yylex` changes no global but `indexligne`. -/
theorem yylex_etat (s : Etat) :
    (yylex s).2 = { s with indexligne := (yylex s).2.indexligne } := by
  unfold yylex
  split <;> rfl

theorem yylex_matrice (s : Etat) : (yylex s).2.matrice = s.matrice := by
  rw [yylex_etat]
theorem yylex_curseur (s : Etat) : (yylex s).2.curseur = s.curseur := by
  rw [yylex_etat]
theorem yylex_stack (s : Etat) : (yylex s).2.stack = s.stack := by
  rw [yylex_etat]
theorem yylex_headstack (s : Etat) : (yylex s).2.headstack = s.headstack := by
  rw [yylex_etat]
theorem yylex_ligne (s : Etat) : (yylex s).2.ligne = s.ligne := by
  rw [yylex_etat]
theorem yylex_stdin (s : Etat) : (yylex s).2.stdin = s.stdin := by
  rw [yylex_etat]
theorem yylex_stdout (s : Etat) : (yylex s).2.stdout = s.stdout := by
  rw [yylex_etat]
theorem yylex_stderr (s : Etat) : (yylex s).2.stderr = s.stderr := by
  rw [yylex_etat]

/-- The turn of the dispatcher on a `+`. -/
theorem tour_plus (s : Etat) (h : (yylex s).1 = PLUS) :
    yyparse_tour s =
      if (yylex s).2.matrice (yylex s).2.curseur ≥ 127 then
        .suite { (yylex s).2 with stderr := (yylex s).2.stderr ++ [.caseHorsLimite] }
      else
        .suite { (yylex s).2 with
          matrice := ecrire (yylex s).2.matrice (yylex s).2.curseur
            ((yylex s).2.matrice (yylex s).2.curseur + 1) } := by
  unfold yyparse_tour
  rw [h]
  rfl

/-- C2, as amended: on a `+`, a cell holding `v ≤ 127` holds `min (v+1) 127`
afterwards; a warning is written exactly when `v ≥ 127`, and then the tape is
unchanged (a cell above 127 stays where it is); the cursor never moves.  And
128 consecutive `+` from the initial state leave cell 0 at 127 with exactly
one warning. -/
theorem plus_sature (s : Etat) (h : (yylex s).1 = PLUS) :
    (∃ s1, yyparse_tour s = .suite s1 ∧ s1.curseur = s.curseur ∧
      (s.matrice s.curseur ≤ 127 →
        s1.matrice s.curseur = min (s.matrice s.curseur + 1) 127) ∧
      (127 ≤ s.matrice s.curseur →
        s1.matrice = s.matrice ∧ s1.stderr = s.stderr ++ [.caseHorsLimite]) ∧
      (s.matrice s.curseur < 127 → s1.stderr = s.stderr) ∧
      (∀ i, i ≠ s.curseur → s1.matrice i = s.matrice i)) ∧
    (∃ s2, yyparse 129 (initial (List.replicate 128 PLUS ++ [NL]) []) = some (.retour s2) ∧
      s2.matrice 0 = 127 ∧ s2.stderr = [.caseHorsLimite]) := by
  refine ⟨?_, ⟨_, rfl, by decide, by decide⟩⟩
  rw [tour_plus s h]
  have hm := yylex_matrice s
  have hc := yylex_curseur s
  have he := yylex_stderr s
  by_cases hv : (yylex s).2.matrice (yylex s).2.curseur ≥ 127
  · rw [if_pos hv]
    rw [hm, hc] at hv
    refine ⟨_, rfl, hc, ?_, ?_, ?_, ?_⟩
    · intro hle
      show (yylex s).2.matrice s.curseur = _
      rw [hm]
      omega
    · intro _
      exact ⟨hm, by show (yylex s).2.stderr ++ _ = _; rw [he]⟩
    · intro hlt; omega
    · intro i _
      show (yylex s).2.matrice i = _
      rw [hm]
  · rw [if_neg hv]
    rw [hm, hc] at hv
    refine ⟨_, rfl, hc, ?_, ?_, ?_, ?_⟩
    · intro _
      show ecrire (yylex s).2.matrice (yylex s).2.curseur _ s.curseur = _
      rw [hm, hc]
      simp only [ecrire, if_true]
      omega
    · intro hge; omega
    · intro _; exact he
    · intro i hi
      show ecrire (yylex s).2.matrice (yylex s).2.curseur _ i = _
      rw [hm, hc]
      simp only [ecrire, if_neg hi]

/-- C2, on the line `+` from the initial state: cell 0 goes from 0 to 1. -/
theorem plus_sature_witness :
    (yylex (initial (codes "+\n") [])).1 = PLUS ∧
    ∃ s1, yyparse_tour (initial (codes "+\n") []) = .suite s1 ∧ s1.matrice 0 = 1 :=
  ⟨by decide,
   by
    obtain ⟨s1, h1, _, h2, _⟩ := (plus_sature (initial (codes "+\n") []) (by decide)).1
    exact ⟨s1, h1, by simpa [initial] using h2 (by decide)⟩⟩

/-- C2 as stated fails above 127: after `,` has stored the input byte 200, a
`+` leaves the cell at 200, which is not `min (200+1) 127`. -/
theorem plus_sature_contre :
    ∃ s1 s2, yyparse_tour (initial (codes ",+\n") [200, 10]) = .suite s1 ∧
      (yylex s1).1 = PLUS ∧ s1.matrice s1.curseur = 200 ∧
      yyparse_tour s1 = .suite s2 ∧ s2.matrice s2.curseur = 200 ∧
      s2.matrice s2.curseur ≠ min (s1.matrice s1.curseur + 1) 127 ∧
      s2.stderr = [.caseHorsLimite] :=
  ⟨_, _, rfl, by decide, by decide, rfl, by decide, by decide, by decide⟩



/-- A character that is not NUL is inside the buffer. -/
theorem drop_of_car (l : List Nat) (i : Nat) (h : car l i ≠ NUL) :
    l.drop i = car l i :: l.drop (i + 1) := by
  have hlen : i < l.length := by
    by_contra hcon
    exact h (by unfold car; rw [List.getD_eq_default _ _ (by omega)])
  have : car l i = l[i] := by
    unfold car
    rw [List.getD_eq_getElem _ _ hlen]
  rw [this, List.drop_eq_getElem_cons hlen]

/-- When the scan position is on an operator, `yylex` returns it and moves
the scan position just after it. -/
theorem yylex_op (s : Etat) (h : car s.ligne s.indexligne ∈ ops) :
    yylex s = (car s.ligne s.indexligne, { s with indexligne := s.indexligne + 1 }) := by
  have hnl : car s.ligne s.indexligne ≠ NL := by
    intro e; rw [e] at h; exact absurd h (by decide)
  have hnul : car s.ligne s.indexligne ≠ NUL := by
    intro e; rw [e] at h; exact absurd h (by decide)
  unfold yylex
  rw [if_neg hnl, drop_of_car _ _ hnul]
  have : yylex_boucle (car s.ligne s.indexligne :: s.ligne.drop (s.indexligne + 1))
      s.indexligne = s.indexligne := by
    simp [yylex_boucle, strchr_ops, h]
  simp only [this]

/-- When the scan position is on the end-of-line marker, `yylex` returns 0 and
changes nothing. -/
theorem yylex_nl (s : Etat) (h : car s.ligne s.indexligne = NL) : yylex s = (0, s) := by
  unfold yylex
  rw [if_pos h]

theorem car_replicate_lt (n k c : Nat) (l : List Nat) (h : k < n) :
    car (List.replicate n c ++ l) k = c := by
  unfold car
  rw [List.getD_eq_getElem _ _ (by simp; omega)]
  rw [List.getElem_append_left (by simpa using h)]
  simp

theorem car_replicate_eq (n c : Nat) (l : List Nat) :
    car (List.replicate n c ++ l) n = car l 0 := by
  unfold car
  simp [List.getD_eq_getElem?_getD, List.getElem?_append_right]

/-- A turn that ends by `break` is followed by the next turn. -/
theorem yyparse_suite (n : Nat) (s s1 : Etat) (h : yyparse_tour s = .suite s1) :
    yyparse (n + 1) s = yyparse n s1 := by
  rw [yyparse, h]

/-- A line of `m` more `>` moves the cursor `m` cells to the right as long as
the test `curseur >= MAX_CASES` lets it, and changes nothing else. -/
theorem droites (n : Nat) (fin : List Nat) : ∀ (m : Nat) (s : Etat),
    s.ligne = List.replicate n DROITE ++ NL :: fin → s.indexligne + m = n →
    s.curseur + m ≤ MAX_CASES →
    yyparse (m + 1) s = some (.retour { s with indexligne := n, curseur := s.curseur + m }) := by
  intro m
  induction m with
  | zero =>
    intro s hl hi _
    have hcar : car s.ligne s.indexligne = NL := by
      rw [hl, show s.indexligne = n by omega, car_replicate_eq]; rfl
    simp only [yyparse, yyparse_tour, yylex_nl s hcar]
    have : yyparse_switch 0 s = .retour s := rfl
    rw [this]
    have e : s.indexligne = n := by omega
    cases s
    simp at e ⊢
    exact e
  | succ m ih =>
    intro s hl hi hc
    have hcar : car s.ligne s.indexligne = DROITE := by
      rw [hl, car_replicate_lt _ _ _ _ (by omega)]
    have hlex := yylex_op s (by rw [hcar]; decide)
    rw [hcar] at hlex
    have hlt : ¬ s.curseur ≥ MAX_CASES := by push_cast at hc; omega
    have htour : yyparse_tour s =
        .suite { s with indexligne := s.indexligne + 1, curseur := s.curseur + 1 } := by
      unfold yyparse_tour
      rw [hlex]
      show (if s.curseur ≥ MAX_CASES then _ else _) = _
      rw [if_neg hlt]
    rw [yyparse_suite _ _ _ htour,
      ih { s with indexligne := s.indexligne + 1, curseur := s.curseur + 1 } hl
        (by show s.indexligne + 1 + m = n; omega)
        (by show s.curseur + 1 + (m : Int) ≤ MAX_CASES; push_cast at hc; omega)]
    have e : s.curseur + 1 + (m : Int) = s.curseur + ((m + 1 : Nat) : Int) := by
      push_cast; omega
    simp only [e]

/-- What `fgets` takes from an input that starts with `k` bytes `c` and an
end of line, when it may store more than `k` bytes: that line. -/
theorem fgets_lire_ligne (c : Nat) (hc : c ≠ NL) (reste : List Nat) :
    ∀ k n, k < n →
      fgets_lire n (List.replicate k c ++ NL :: reste) = (List.replicate k c ++ [NL], reste) := by
  intro k
  induction k with
  | zero =>
    intro n hn
    obtain ⟨m, rfl⟩ : ∃ m, n = m + 1 := ⟨n - 1, by omega⟩
    simp [fgets_lire]
  | succ k ih =>
    intro n hn
    obtain ⟨m, rfl⟩ : ∃ m, n = m + 1 := ⟨n - 1, by omega⟩
    rw [List.replicate_succ, List.cons_append, fgets_lire, if_neg hc, ih m (by omega)]
    rfl

/-- The call of `fgets` on such an input. -/
theorem fgets_ligne (s : Etat) (c : Nat) (hc : c ≠ NL) (k : Nat) (hk : k < MAX_LIGNE - 1)
    (reste : List Nat) (h : s.stdin = List.replicate k c ++ NL :: reste) :
    fgets s = some { s with
      ligne := List.replicate k c ++ NL :: NUL :: s.ligne.drop (k + 2), stdin := reste } := by
  unfold fgets
  split
  · rename_i heq
    rw [h] at heq
    cases k with
    | zero => exact absurd heq (by simp)
    | succ k => exact absurd heq (by rw [List.replicate_succ]; simp)
  · rw [h, fgets_lire_ligne c hc reste k _ hk]
    simp only [List.append_assoc, List.length_append, List.length_replicate,
      List.length_singleton, List.singleton_append]

/-- Lines of `n` times `>` given one after the other move the cursor `n` cells
each, without a warning, up to `MAX_CASES` included. -/
theorem main_boucle_droites (n : Nat) (hn : n < MAX_LIGNE - 1) (j : Nat) :
    ∀ (k : Nat) (s : Etat) (reste : List Nat),
    s.stdin = (List.replicate j (List.replicate n DROITE ++ [NL])).flatten ++ reste →
    s.curseur + j * n ≤ MAX_CASES →
    ∃ s1, main_boucle (n + 1) (j + k) s = main_boucle (n + 1) k s1 ∧
      s1.curseur = s.curseur + j * n ∧ s1.stdin = reste ∧ s1.stderr = s.stderr ∧
      s1.matrice = s.matrice ∧ s1.headstack = s.headstack := by
  induction j with
  | zero =>
    intro k s reste h _
    refine ⟨s, by rw [Nat.zero_add], ?_, ?_, rfl, rfl, rfl⟩
    · push_cast; ring
    · rw [h]; rfl
  | succ j ih =>
    intro k s reste h hc
    have hc2 : s.curseur + (n : Int) + (j : Int) * (n : Int) ≤ MAX_CASES := by
      have e : s.curseur + ((j + 1 : Nat) : Int) * (n : Int) =
          s.curseur + (n : Int) + (j : Int) * (n : Int) := by push_cast; ring
      rw [← e]; exact hc
    have hj : (0 : Int) ≤ (j : Int) * (n : Int) := by positivity
    have hin : s.stdin = List.replicate n DROITE ++
        NL :: ((List.replicate j (List.replicate n DROITE ++ [NL])).flatten ++ reste) := by
      rw [h, List.replicate_succ, List.flatten_cons, List.append_assoc, List.append_assoc]
      rfl
    have hf := fgets_ligne
      { s with stdout := s.stdout ++ [.attente s.curseur (s.matrice s.curseur)] }
      DROITE (by decide) n hn _ hin
    have hrun := droites n (NUL :: s.ligne.drop (n + 2)) n
      { s with stdout := s.stdout ++ [.attente s.curseur (s.matrice s.curseur)],
               ligne := List.replicate n DROITE ++ NL :: NUL :: s.ligne.drop (n + 2),
               stdin := (List.replicate j (List.replicate n DROITE ++ [NL])).flatten ++ reste,
               indexligne := 0 }
      rfl (Nat.zero_add n)
      (by show s.curseur + (n : Int) ≤ MAX_CASES; omega)
    obtain ⟨s1, h1, h2, h3, h4, h5, h6⟩ := ih k
      { s with stdout := s.stdout ++ [.attente s.curseur (s.matrice s.curseur)],
               ligne := List.replicate n DROITE ++ NL :: NUL :: s.ligne.drop (n + 2),
               stdin := (List.replicate j (List.replicate n DROITE ++ [NL])).flatten ++ reste,
               indexligne := n, curseur := s.curseur + (n : Int) }
      reste rfl hc2
    refine ⟨s1, ?_, ?_, h3, h4, h5, h6⟩
    · rw [show j + 1 + k = (j + k) + 1 by omega, main_boucle, hf]
      simp only []
      rw [hrun]
      exact h1
    · rw [h2]
      show s.curseur + (n : Int) + _ = _
      push_cast
      ring

/-- C3, at the failing input: with the cursor on the last cell, 29999, a `>`
moves it to 30000 and writes no warning. -/
theorem droite_deborde :
    (yylex { initial (codes ">\n") [] with curseur := MAX_CASES - 1 }).1 = DROITE ∧
    ∃ s1, yyparse_tour { initial (codes ">\n") [] with curseur := MAX_CASES - 1 } = .suite s1 ∧
      s1.curseur = MAX_CASES ∧ s1.stderr = [] ∧
      s1.curseur ≠ min (MAX_CASES - 1 + 1) (MAX_CASES - 1) :=
  ⟨by decide, _, rfl, by decide, by decide, by decide⟩

/-- C4, at the failing input: on eight lines of 3750 `>` followed by the line
`+`, the program, run from its start, reads the `+` with the cursor at
30000, reached without any warning, so that `matrice[curseur]` is no longer
a cell of the tape: the `+` increments `matrice[30000]`. -/
theorem curseur_hors_matrice :
    (List.replicate 3750 DROITE ++ [NL]).length < MAX_LIGNE ∧
    ∃ s, main 3751 10
        ((List.replicate 8 (List.replicate 3750 DROITE ++ [NL])).flatten ++ codes "+\n") =
        some (.retour s) ∧
      s.curseur = MAX_CASES ∧ ¬ s.curseur < MAX_CASES ∧ s.stderr = [] ∧
      s.matrice MAX_CASES = 1 := by
  refine ⟨by rw [List.length_append, List.length_replicate]; decide, ?_⟩
  obtain ⟨s, h1, h2, h3, h4, h5, _⟩ := main_boucle_droites 3750 (by decide) 8 2
    { initial [] ((List.replicate 8 (List.replicate 3750 DROITE ++ [NL])).flatten ++ codes "+\n")
      with stdout := [.titre] } (codes "+\n") rfl (by decide)
  have hc : s.curseur = MAX_CASES := by rw [h2]; decide
  have hm : s.matrice s.curseur = 0 := by rw [h5]; rfl
  have he : s.stderr = [] := by rw [h4]; rfl
  have hf : fgets { s with stdout := s.stdout ++ [.attente s.curseur (s.matrice s.curseur)] } =
      some { s with stdout := s.stdout ++ [.attente s.curseur (s.matrice s.curseur)],
                    ligne := PLUS :: NL :: NUL :: s.ligne.drop 3, stdin := [] } :=
    fgets_ligne { s with stdout := s.stdout ++ [.attente s.curseur (s.matrice s.curseur)] }
      PLUS (by decide) 1 (by decide) [] (h3.trans (by decide))
  have ht1 : yylex
      { s with stdout := s.stdout ++ [.attente s.curseur (s.matrice s.curseur)],
               ligne := PLUS :: NL :: NUL :: s.ligne.drop 3, stdin := [], indexligne := 0 } =
      (PLUS,
        { s with stdout := s.stdout ++ [.attente s.curseur (s.matrice s.curseur)],
                 ligne := PLUS :: NL :: NUL :: s.ligne.drop 3, stdin := [], indexligne := 1 }) :=
    yylex_op _ (by decide : PLUS ∈ ops)
  have ht2 : yylex
      { s with stdout := s.stdout ++ [.attente s.curseur (s.matrice s.curseur)],
               ligne := PLUS :: NL :: NUL :: s.ligne.drop 3, stdin := [], indexligne := 1,
               matrice := ecrire s.matrice s.curseur (s.matrice s.curseur + 1) } = (0, _) :=
    yylex_nl _ rfl
  have hrun : yyparse 3751
      { s with stdout := s.stdout ++ [.attente s.curseur (s.matrice s.curseur)],
               ligne := PLUS :: NL :: NUL :: s.ligne.drop 3, stdin := [], indexligne := 0 } =
      some (.retour
        { s with stdout := s.stdout ++ [.attente s.curseur (s.matrice s.curseur)],
                 ligne := PLUS :: NL :: NUL :: s.ligne.drop 3, stdin := [], indexligne := 1,
                 matrice := ecrire s.matrice s.curseur (s.matrice s.curseur + 1) }) := by
    have e1 : yyparse_tour
        { s with stdout := s.stdout ++ [.attente s.curseur (s.matrice s.curseur)],
                 ligne := PLUS :: NL :: NUL :: s.ligne.drop 3, stdin := [], indexligne := 0 } =
        .suite
          { s with stdout := s.stdout ++ [.attente s.curseur (s.matrice s.curseur)],
                   ligne := PLUS :: NL :: NUL :: s.ligne.drop 3, stdin := [], indexligne := 1,
                   matrice := ecrire s.matrice s.curseur (s.matrice s.curseur + 1) } := by
      unfold yyparse_tour
      rw [ht1]
      show (if s.matrice s.curseur ≥ 127 then _ else _) = _
      rw [if_neg (by omega)]
    rw [show (3751 : Nat) = 3749 + 1 + 1 from rfl, yyparse_suite _ _ _ e1, yyparse]
    unfold yyparse_tour
    rw [ht2]
    rfl
  have hmain : ∃ s2, main 3751 10
        ((List.replicate 8 (List.replicate 3750 DROITE ++ [NL])).flatten ++ codes "+\n") =
        some (.retour s2) ∧ s2.curseur = s.curseur ∧ s2.stderr = s.stderr ∧
        s2.matrice = ecrire s.matrice s.curseur (s.matrice s.curseur + 1) := by
    unfold main
    rw [h1, main_boucle, hf]
    simp only []
    rw [hrun]
    simp only []
    rw [main_boucle]
    exact ⟨_, rfl, rfl, rfl, rfl⟩
  obtain ⟨s2, g1, g2, g3, g4⟩ := hmain
  refine ⟨s2, g1, by rw [g2, hc], by rw [g2, hc]; decide, by rw [g3, he], ?_⟩
  rw [g4, hm, hc]
  simp [ecrire]

/-- C5, at the failing input: on the line `,` followed by the input byte 200
and its end of line, the program, run from its start, stores 200 in cell 0,
above 127, without any warning. -/
theorem case_hors_ascii :
    ∃ s, main 3 2 (codes ",\n" ++ [200, 10]) = some (.retour s) ∧
      s.matrice 0 = 200 ∧ ¬ s.matrice 0 ≤ 127 ∧ s.stderr = [] ∧ s.stdin = [] :=
  ⟨_, rfl, by decide, by decide, by decide, by decide⟩

/-- C6, at the failing input: on the line `+[[[[[[[[[-]]]]]]]]]` the ninth `[`
is read with 8 frames on the stack (`headstack = 7`), a matching closer, a
non-zero cell and a position other than the top frame's start; the turn ends
by `break` with a ninth frame stored in `stack[8]`, and the program, run on
that line, ends normally, without any error.  The error is raised one `[`
later, on ten nested loops. -/
theorem pile_neuvieme_bloc :
    (∃ s, tours 9 (initial (codes "+[[[[[[[[[-]]]]]]]]]\n") []) = .suite s ∧
      s.headstack = STACK_MAX - 1 ∧ (yylex s).1 = LBRA ∧ (yylex s).2.indexligne - 1 = 9 ∧
      ferme s.ligne 9 11 ∧ s.matrice s.curseur = 1 ∧ (s.stack s.headstack).debut = 8 ∧
      ∃ s1, yyparse_tour s = .suite s1 ∧ s1.headstack = STACK_MAX ∧
        s1.stack STACK_MAX = ⟨9, 11⟩) ∧
    (∃ s2, main 30 2 (codes "+[[[[[[[[[-]]]]]]]]]\n") = some (.retour s2) ∧
      s2.headstack = -1 ∧ s2.stderr = []) ∧
    (∃ s3, main 30 2 (codes "+[[[[[[[[[[-]]]]]]]]]]\n") =
        some (.fatal (.pilePleine STACK_MAX) s3) ∧ s3.headstack = STACK_MAX) :=
  ⟨⟨_, rfl, by decide, by decide, by decide, by decide, by decide, by decide,
     _, rfl, by decide, by decide⟩,
   ⟨_, rfl, by decide, by decide⟩, ⟨_, rfl, by decide⟩⟩



theorem yylex_boucle_ge (cs : List Nat) : ∀ i, i ≤ yylex_boucle cs i := by
  induction cs with
  | nil => intro i; exact le_refl _
  | cons c cs ih =>
    intro i
    unfold yylex_boucle
    split
    · exact le_refl _
    · exact le_trans (Nat.le_succ i) (ih (i + 1))

/-- A token other than the end-of-line signal was read in the line, at the
position just before the new scan position. -/
theorem yylex_tok (s : Etat) (h : (yylex s).1 ≠ 0) :
    1 ≤ (yylex s).2.indexligne ∧ s.indexligne ≤ (yylex s).2.indexligne - 1 ∧
      car s.ligne ((yylex s).2.indexligne - 1) = (yylex s).1 := by
  unfold yylex at h ⊢
  split
  · rename_i hnl
    rw [if_pos hnl] at h
    exact absurd rfl h
  · refine ⟨by simp, ?_, by simp⟩
    simpa using yylex_boucle_ge _ _

/-- The `switch` on a `[`. -/
theorem switch_lbra (t : Etat) :
    yyparse_switch LBRA t =
      if find_lbark t = 0 then .fatal (.crochetFermantManquant (t.indexligne - 1)) t
      else if t.matrice t.curseur = 0 then .suite { t with indexligne := find_lbark t + 1 }
      else if t.headstack ≥ 0 ∧ (t.stack t.headstack).debut = t.indexligne - 1 then .suite t
      else if t.headstack ≥ STACK_MAX then .fatal (.pilePleine STACK_MAX) t
      else
        .suite { t with headstack := t.headstack + 1,
                        stack := ecrire t.stack (t.headstack + 1)
                          ⟨t.indexligne - 1, find_lbark t⟩ } := rfl

/-- The `switch` on a `]`. -/
theorem switch_rbra (t : Etat) :
    yyparse_switch RBRA t =
      if t.headstack < 0 then .fatal (.crochetOuvrantManquant (t.indexligne - 1)) t
      else if t.matrice t.curseur ≠ 0 then
        .suite { t with indexligne := (t.stack t.headstack).debut }
      else .suite { t with headstack := t.headstack - 1 } := rfl

/-- C7: when the dispatcher reads a `[`, at position `p`, the turn ends by the
error "missing ']'" with the index `p`, in the state left by `yylex`, as soon
as no position of the line holds the matching closer, whatever the current
cell; and when some position holds the matching closer the turn never ends
by that error. -/
theorem crochet_sans_fermant (s : Etat) (h : (yylex s).1 = LBRA) :
    car s.ligne ((yylex s).2.indexligne - 1) = LBRA ∧
    ((¬ ∃ q, ferme s.ligne ((yylex s).2.indexligne - 1) q) →
      yyparse_tour s =
        .fatal (.crochetFermantManquant ((yylex s).2.indexligne - 1)) (yylex s).2) ∧
    ((∃ q, ferme s.ligne ((yylex s).2.indexligne - 1) q) →
      ∀ i s1, yyparse_tour s ≠ .fatal (.crochetFermantManquant i) s1) := by
  obtain ⟨h1, _, hcar⟩ := yylex_tok s (by rw [h]; decide)
  have hidx : (yylex s).2.indexligne = ((yylex s).2.indexligne - 1) + 1 := by omega
  have hl := yylex_ligne s
  have htour : yyparse_tour s = yyparse_switch LBRA (yylex s).2 := by
    unfold yyparse_tour; rw [h]
  refine ⟨by rw [hcar, h], ?_, ?_⟩
  · intro hno
    have h0 : find_lbark (yylex s).2 = 0 := by
      by_contra hne
      exact hno ⟨_, hl ▸ ferme_of_find_lbark (yylex s).2 _ hidx hne⟩
    rw [htour, switch_lbra, if_pos h0]
  · rintro ⟨q, hq⟩ i s1
    have hf : find_lbark (yylex s).2 = q :=
      find_lbark_of_ferme (yylex s).2 _ q hidx (hl.symm ▸ hq)
    have hne : ¬ find_lbark (yylex s).2 = 0 := by
      rw [hf]; have := hq.1; omega
    rw [htour, switch_lbra, if_neg hne]
    split_ifs <;> simp

/-- C7, on the line `[-` from the initial state, whose cell 0 is 0. -/
theorem crochet_sans_fermant_witness :
    (yylex (initial (codes "[-\n") [])).1 = LBRA ∧
    (¬ ∃ q, ferme (codes "[-\n") 0 q) ∧
    yyparse_tour (initial (codes "[-\n") []) =
      .fatal (.crochetFermantManquant 0) (yylex (initial (codes "[-\n") [])).2 := by
  have hno : ¬ ∃ q, ferme (codes "[-\n") 0 q := by
    rintro ⟨q, hq⟩
    have := find_lbark_of_ferme { initial (codes "[-\n") [] with indexligne := 1 } 0 q rfl hq
    have h0 : find_lbark { initial (codes "[-\n") [] with indexligne := 1 } = 0 := by decide
    have := hq.1
    omega
  exact ⟨by decide, hno, (crochet_sans_fermant (initial (codes "[-\n") []) (by decide)).2.1 hno⟩

/-- C8: when the dispatcher reads a `]` while the loop stack is empty, the turn
ends by the error "missing '['" with the index of that `]`, whatever the
current cell, in the state left by `yylex` : tape and cursor are the same. -/
theorem crochet_fermant_pile_vide (s : Etat) (h : (yylex s).1 = RBRA)
    (hvide : s.headstack = -1) :
    yyparse_tour s =
      .fatal (.crochetOuvrantManquant ((yylex s).2.indexligne - 1)) (yylex s).2 ∧
    car s.ligne ((yylex s).2.indexligne - 1) = RBRA ∧
    (yylex s).2.matrice = s.matrice ∧ (yylex s).2.curseur = s.curseur := by
  obtain ⟨_, _, hcar⟩ := yylex_tok s (by rw [h]; decide)
  refine ⟨?_, by rw [hcar, h], yylex_matrice s, yylex_curseur s⟩
  unfold yyparse_tour
  rw [h, switch_rbra, if_pos (by rw [yylex_headstack, hvide]; decide)]

/-- C8, on the line `+]` after its `+` : cell 0 holds 1, the stack is empty. -/
theorem crochet_fermant_pile_vide_witness :
    (yylex { initial (codes "+]\n") [] with indexligne := 1, matrice := fun _ => 1 }).1 = RBRA ∧
    ∃ s1, yyparse_tour
        { initial (codes "+]\n") [] with indexligne := 1, matrice := fun _ => 1 } =
      .fatal (.crochetOuvrantManquant 1) s1 ∧ s1.matrice 0 = 1 ∧ s1.curseur = 0 :=
  ⟨by decide, _,
   (crochet_fermant_pile_vide
      { initial (codes "+]\n") [] with indexligne := 1, matrice := fun _ => 1 }
      (by decide) rfl).1,
   by decide, by decide⟩



/-- The `switch` on a `,` when no input byte is left: `getchar` returns `EOF`,
the cell is cleared, and the `'\n'` pushed back by `ungetc` is the byte that
stops the loop emptying `stdin`. -/
theorem switch_virgule_fin (t : Etat) (h : t.stdin = []) :
    yyparse_switch VIRGULE t =
      .suite { t with stdout := t.stdout ++ [.invite t.curseur],
                      matrice := ecrire t.matrice t.curseur 0, stdin := [] } := by
  unfold yyparse_switch
  simp only [h]
  rfl

/-- C9: when the dispatcher reads a `,` and no input byte is left, the turn
ends by `break` (the loop emptying `stdin` stops on the pushed-back end of
line): the current cell holds 0, every other cell, the cursor, the loop stack
and the warnings are unchanged, the input is still at its end, and the scan
position is just after the `,` so that the line goes on with its next token. -/
theorem virgule_fin_entree (s : Etat) (h : (yylex s).1 = VIRGULE) (hfin : s.stdin = []) :
    ∃ s1, yyparse_tour s = .suite s1 ∧
      s1.matrice s.curseur = 0 ∧ (∀ i, i ≠ s.curseur → s1.matrice i = s.matrice i) ∧
      s1.curseur = s.curseur ∧ s1.stack = s.stack ∧ s1.headstack = s.headstack ∧
      s1.stdin = [] ∧ s1.stderr = s.stderr ∧ s1.stdout = s.stdout ++ [.invite s.curseur] ∧
      s1.ligne = s.ligne ∧ s1.indexligne = (yylex s).2.indexligne ∧
      car s.ligne (s1.indexligne - 1) = VIRGULE := by
  obtain ⟨_, _, hcar⟩ := yylex_tok s (by rw [h]; decide)
  have htour : yyparse_tour s =
      .suite { (yylex s).2 with
        stdout := (yylex s).2.stdout ++ [.invite (yylex s).2.curseur],
        matrice := ecrire (yylex s).2.matrice (yylex s).2.curseur 0, stdin := [] } := by
    unfold yyparse_tour
    rw [h, switch_virgule_fin _ (by rw [yylex_stdin, hfin])]
  refine ⟨_, htour, ?_, ?_, yylex_curseur s, yylex_stack s, yylex_headstack s, rfl,
    yylex_stderr s, ?_, yylex_ligne s, rfl, by rw [← h]; exact hcar⟩
  · show ecrire (yylex s).2.matrice (yylex s).2.curseur 0 s.curseur = 0
    rw [yylex_curseur]; simp [ecrire]
  · intro i hi
    show ecrire (yylex s).2.matrice (yylex s).2.curseur 0 i = _
    rw [yylex_curseur, yylex_matrice]; simp [ecrire, hi]
  · show (yylex s).2.stdout ++ [.invite (yylex s).2.curseur] = _
    rw [yylex_stdout, yylex_curseur]

/-- C9, on the line `+,+` after its first `+`, with no input at all: cell 0
goes from 1 back to 0 and the scan position is on the second `+`. -/
theorem virgule_fin_entree_witness :
    (yylex { initial (codes "+,+\n") [] with indexligne := 1, matrice := fun _ => 1 }).1
      = VIRGULE ∧
    ∃ s1, yyparse_tour
        { initial (codes "+,+\n") [] with indexligne := 1, matrice := fun _ => 1 } = .suite s1 ∧
      s1.matrice 0 = 0 ∧ s1.indexligne = 2 := by
  obtain ⟨s1, h1, h2, _, _, _, _, _, _, _, _, h3, _⟩ := virgule_fin_entree
    { initial (codes "+,+\n") [] with indexligne := 1, matrice := fun _ => 1 } (by decide) rfl
  exact ⟨by decide, s1, h1, h2, by rw [h3]; decide⟩

/-- C10, at the failing input: with the empty line and then the line `b`
pending, a `,` stores 10 in the cell and reads both lines; with the empty
line alone pending, the loop emptying `stdin` never ends. -/
theorem virgule_ligne_vide :
    (∃ s1, yyparse_tour (initial (codes ",\n") [10, 98, 10]) = .suite s1 ∧
      s1.matrice 0 = 10 ∧ s1.stdin = [] ∧ s1.stdin ≠ [98, 10]) ∧
    (∃ s2, yyparse_tour (initial (codes ",\n") [10]) = .bloque s2) :=
  ⟨⟨_, rfl, by decide, by decide, by decide⟩, ⟨_, rfl⟩⟩

/-! ## The tokenizer at the end of a line -/

/-- C11, at the failing input: on the line `a` (the buffer holds `a`, the end
of line at index 1 and the NUL at index 2) with the scan position 0, no
operator is left; `yylex` returns 0 but leaves the scan position at 3, past
the end of line and past the NUL: its loop skipped the end of line as any
other non-operator and stopped on the NUL only.  With the scan position on
the end of line, `yylex` returns 0 and leaves it there. -/
theorem yylex_depasse_fin :
    car (codes "a\n" ++ [NUL]) 1 = NL ∧ car (codes "a\n" ++ [NUL]) 2 = NUL ∧
    (yylex (initial (codes "a\n" ++ [NUL]) [])).1 = 0 ∧
    (yylex (initial (codes "a\n" ++ [NUL]) [])).2.indexligne = 3 ∧
    (yylex { initial (codes "a\n" ++ [NUL]) [] with indexligne := 1 }).1 = 0 ∧
    (yylex { initial (codes "a\n" ++ [NUL]) [] with indexligne := 1 }).2.indexligne = 1 :=
  ⟨by decide, by decide, by decide, by decide, by decide, by decide⟩

/-! ## Output and loops, turn by turn -/

/-- C15: on a `.` the turn ends by `break` with exactly one byte, the value of
the current cell, appended to the output; tape, cursor, loop stack, input
and warnings are unchanged.  And the line `++.` run from the initial state
writes exactly the byte 2. -/
theorem point_ecrit (s : Etat) (h : (yylex s).1 = POINT) :
    (∃ s1, yyparse_tour s = .suite s1 ∧
      s1.stdout = s.stdout ++ [.octet (s.matrice s.curseur)] ∧
      s1.matrice = s.matrice ∧ s1.curseur = s.curseur ∧ s1.stack = s.stack ∧
      s1.headstack = s.headstack ∧ s1.stdin = s.stdin ∧ s1.stderr = s.stderr) ∧
    (∃ s2, yyparse 4 (initial (codes "++.\n") []) = some (.retour s2) ∧
      s2.stdout = [.octet 2] ∧ s2.stderr = []) := by
  refine ⟨⟨{ (yylex s).2 with
      stdout := (yylex s).2.stdout ++ [.octet ((yylex s).2.matrice (yylex s).2.curseur)] },
    ?_, ?_, yylex_matrice s, yylex_curseur s, yylex_stack s, yylex_headstack s,
    yylex_stdin s, yylex_stderr s⟩, ⟨_, rfl, by decide, by decide⟩⟩
  · unfold yyparse_tour
    rw [h]
    rfl
  · show (yylex s).2.stdout ++ [.octet ((yylex s).2.matrice (yylex s).2.curseur)] = _
    rw [yylex_stdout, yylex_matrice, yylex_curseur]

/-- C15, on the line `+.` after its `+` : the byte 1 is written. -/
theorem point_ecrit_witness :
    (yylex { initial (codes "+.\n") [] with indexligne := 1, matrice := fun _ => 1 }).1
      = POINT ∧
    ∃ s1, yyparse_tour
        { initial (codes "+.\n") [] with indexligne := 1, matrice := fun _ => 1 } = .suite s1 ∧
      s1.stdout = [.octet 1] := by
  obtain ⟨s1, h1, h2, _⟩ := (point_ecrit
    { initial (codes "+.\n") [] with indexligne := 1, matrice := fun _ => 1 } (by decide)).1
  exact ⟨by decide, s1, h1, h2⟩

/-- C17: when the dispatcher reads a `[` at position `p`, whose matching
closer is at `q`, with the current cell at 0, the turn ends by `break` with
the scan position at `q + 1`; tape, cursor, loop stack (top index and
frames), output, input and warnings are unchanged. -/
theorem crochet_saute (s : Etat) (p q : Nat) (h : (yylex s).1 = LBRA)
    (hp : (yylex s).2.indexligne = p + 1) (hq : ferme s.ligne p q)
    (hz : s.matrice s.curseur = 0) :
    ∃ s1, yyparse_tour s = .suite s1 ∧ s1.indexligne = q + 1 ∧ car s.ligne p = LBRA ∧
      s1.matrice = s.matrice ∧ s1.curseur = s.curseur ∧ s1.stack = s.stack ∧
      s1.headstack = s.headstack ∧ s1.stdout = s.stdout ∧ s1.stdin = s.stdin ∧
      s1.stderr = s.stderr ∧ s1.ligne = s.ligne := by
  obtain ⟨_, _, hcar⟩ := yylex_tok s (by rw [h]; decide)
  have hf : find_lbark (yylex s).2 = q :=
    find_lbark_of_ferme (yylex s).2 p q hp ((yylex_ligne s).symm ▸ hq)
  have hne : ¬ find_lbark (yylex s).2 = 0 := by
    rw [hf]; have := hq.1; omega
  have hz2 : (yylex s).2.matrice (yylex s).2.curseur = 0 := by
    rw [yylex_matrice, yylex_curseur]; exact hz
  refine ⟨{ (yylex s).2 with indexligne := q + 1 }, ?_, rfl, ?_, yylex_matrice s,
    yylex_curseur s, yylex_stack s, yylex_headstack s, yylex_stdout s, yylex_stdin s,
    yylex_stderr s, yylex_ligne s⟩
  · unfold yyparse_tour
    rw [h, switch_lbra, if_neg hne, if_pos hz2, hf]
  · rw [hp] at hcar
    rw [← h]; exact hcar

/-- C17, on the line `[[-]+]` from the initial state, whose cell 0 is 0: the
scan position goes after the closer at 5, not after the inner one at 3. -/
theorem crochet_saute_witness :
    ferme (codes "[[-]+]\n") 0 5 ∧
    ∃ s1, yyparse_tour (initial (codes "[[-]+]\n") []) = .suite s1 ∧ s1.indexligne = 6 ∧
      s1.headstack = -1 := by
  obtain ⟨s1, h1, h2, _, _, _, _, h3, _⟩ := crochet_saute (initial (codes "[[-]+]\n") []) 0 5
    (by decide) (by decide) (by decide) rfl
  exact ⟨by decide, s1, h1, h2, h3⟩

/-- C18: when the dispatcher reads a `]` with a non-zero current cell while the
top frame is `(d, f)`, `d` holding a `[` that has a matching closer on the
line, that turn and the next one (the `[` at `d` read again) both end by `break`, and
after them the scan position is `d + 1`, while tape, cursor, loop stack (top
index and frames), output, input and warnings are what they were before the
`]` was read. -/
theorem retour_arriere (s : Etat) (h : (yylex s).1 = RBRA) (hpile : 0 ≤ s.headstack)
    (hcell : s.matrice s.curseur ≠ 0)
    (hferme : ∃ q, ferme s.ligne (s.stack s.headstack).debut q)
    (hd : car s.ligne (s.stack s.headstack).debut = LBRA) :
    ∃ s1 s2, yyparse_tour s = .suite s1 ∧ s1.indexligne = (s.stack s.headstack).debut ∧
      yyparse_tour s1 = .suite s2 ∧ tours 2 s = .suite s2 ∧
      s2.indexligne = (s.stack s.headstack).debut + 1 ∧
      s2.matrice = s.matrice ∧ s2.curseur = s.curseur ∧ s2.stack = s.stack ∧
      s2.headstack = s.headstack ∧ s2.stdout = s.stdout ∧ s2.stdin = s.stdin ∧
      s2.stderr = s.stderr ∧ s2.ligne = s.ligne := by
  have ht1 : yyparse_tour s = .suite { s with indexligne := (s.stack s.headstack).debut } := by
    unfold yyparse_tour
    rw [h, switch_rbra, if_neg (by rw [yylex_headstack]; omega),
      if_pos (by rw [yylex_matrice, yylex_curseur]; exact hcell)]
    rw [yylex_etat]
  have hlex := yylex_op { s with indexligne := (s.stack s.headstack).debut }
    (by show car s.ligne (s.stack s.headstack).debut ∈ ops; rw [hd]; decide)
  have hlex2 : yylex { s with indexligne := (s.stack s.headstack).debut } =
      (LBRA, { s with indexligne := (s.stack s.headstack).debut + 1 }) := by
    rw [hlex]
    show (car s.ligne (s.stack s.headstack).debut, _) = _
    rw [hd]
  obtain ⟨q, hq⟩ := hferme
  have hf : find_lbark { s with indexligne := (s.stack s.headstack).debut + 1 } = q :=
    find_lbark_of_ferme _ _ _ rfl hq
  have hne : ¬ find_lbark { s with indexligne := (s.stack s.headstack).debut + 1 } = 0 := by
    rw [hf]; have := hq.1; omega
  have ht2 : yyparse_tour { s with indexligne := (s.stack s.headstack).debut } =
      .suite { s with indexligne := (s.stack s.headstack).debut + 1 } := by
    unfold yyparse_tour
    rw [hlex2, switch_lbra, if_neg hne, if_neg hcell, if_pos ⟨hpile, by simp⟩]
  refine ⟨_, _, ht1, rfl, ht2, ?_, rfl, rfl, rfl, rfl, rfl, rfl, rfl, rfl, rfl⟩
  simp only [tours, ht1, ht2]

/-- C18, on the line `++[-]` when its `]` is read for the first time: cell 0
holds 1 and the frame `(2, 4)` is on the stack. -/
theorem retour_arriere_witness :
    ∃ s s2, tours 4 (initial (codes "++[-]\n") []) = .suite s ∧ (yylex s).1 = RBRA ∧
      s.headstack = 0 ∧ s.stack 0 = ⟨2, 4⟩ ∧ s.matrice 0 = 1 ∧
      tours 2 s = .suite s2 ∧ s2.indexligne = 3 ∧ s2.headstack = 0 ∧ s2.matrice 0 = 1 := by
  have hs : ∃ s, tours 4 (initial (codes "++[-]\n") []) = .suite s ∧ (yylex s).1 = RBRA ∧
      s.headstack = 0 ∧ s.stack 0 = ⟨2, 4⟩ ∧ s.matrice 0 = 1 ∧ s.curseur = 0 ∧
      s.ligne = codes "++[-]\n" :=
    ⟨_, rfl, by decide, by decide, by decide, by decide, by decide, by decide⟩
  obtain ⟨s, h1, h2, h3, h4, h5, h6, h7⟩ := hs
  obtain ⟨_, s2, _, _, _, g1, g2, g3, _, _, g4, _⟩ := retour_arriere s h2 (by rw [h3])
    (by rw [h6, h5]; decide) ⟨4, by rw [h3, h4, h7]; decide⟩ (by rw [h3, h4, h7]; decide)
  exact ⟨s, s2, h1, h2, h3, h4, h5, g1, by rw [g2, h3, h4], by rw [g4, h3],
    by rw [g3, h5]⟩

/-! ## The loop that empties the input -/

/-- At end of file the loop emptying `stdin` is still running after any number
of turns. -/
theorem vider_tours_fin (n : Nat) : vider_tours n [] = none := by
  induction n with
  | zero => rfl
  | succ n ih =>
    unfold vider_tours
    rw [if_pos (by decide)]
    exact ih

/-- The function `vider` gives the bytes left exactly when the loop ends after
some number of turns. -/
theorem vider_some_iff (l r : List Nat) :
    vider l = some r ↔ ∃ n, vider_tours n l = some r := by
  induction l with
  | nil =>
    constructor
    · intro h; exact absurd h (by simp [vider])
    · rintro ⟨n, h⟩; rw [vider_tours_fin] at h; exact absurd h (by simp)
  | cons b l ih =>
    by_cases hb : toChar (b : Int) = (NL : Int)
    · constructor
      · intro h
        refine ⟨1, ?_⟩
        simp only [vider, if_pos hb] at h
        simp [vider_tours, getchar, hb, h]
      · rintro ⟨n, h⟩
        cases n with
        | zero => exact absurd h (by simp [vider_tours])
        | succ n =>
          simp only [vider_tours, getchar, hb, ne_eq, not_true_eq_false, if_false] at h
          simp [vider, hb, h]
    · constructor
      · intro h
        simp only [vider, if_neg hb] at h
        obtain ⟨n, hn⟩ := ih.1 h
        exact ⟨n + 1, by simp [vider_tours, getchar, hb, hn]⟩
      · rintro ⟨n, h⟩
        cases n with
        | zero => exact absurd h (by simp [vider_tours])
        | succ n =>
          simp only [vider_tours, getchar, ne_eq, hb, not_false_eq_true, if_true] at h
          simp only [vider, if_neg hb]
          exact ih.2 ⟨n, h⟩

/-- The function `vider` gives `none` exactly when the loop never ends. -/
theorem vider_none_iff (l : List Nat) : vider l = none ↔ ∀ n, vider_tours n l = none := by
  constructor
  · intro h n
    cases hv : vider_tours n l with
    | none => rfl
    | some r =>
      have := (vider_some_iff l r).2 ⟨n, hv⟩
      rw [h] at this
      exact absurd this (by simp)
  · intro h
    cases hv : vider l with
    | none => rfl
    | some r =>
      obtain ⟨n, hn⟩ := (vider_some_iff l r).1 hv
      rw [h n] at hn
      exact absurd hn (by simp)

/-- C20, at the failing input: on the line `,` with the single byte `a` and
then the end of file pending, the first `getchar` returns `a` and every
later one returns `EOF`, which is not the end of line: the loop emptying
`stdin` is still running after any number of turns, and the program, run on
that input, never leaves it. -/
theorem virgule_sans_fin :
    getchar [97] = (97, []) ∧ (∀ n, vider_tours n (getchar [97]).2 = none) ∧
    (∃ s1, yyparse_tour (initial (codes ",\n") [97]) = .bloque s1 ∧ s1.matrice 0 = 97) ∧
    (∃ s2, main 5 5 (codes ",\n" ++ [97]) = some (.bloque s2)) :=
  ⟨rfl, fun n => vider_tours_fin n, ⟨_, rfl, by decide⟩, ⟨_, rfl⟩⟩

/-! ## Runs of whole lines -/

/-- Two successive writes at the same index: the last one stays. -/
theorem ecrire_ecrire {α : Type} (a : Int → α) (i : Int) (v w : α) :
    ecrire (ecrire a i v) i w = ecrire a i w := by
  funext j
  unfold ecrire
  split <;> rfl

theorem ecrire_meme {α : Type} (a : Int → α) (i : Int) (v : α) : ecrire a i v i = v := by
  simp [ecrire]

theorem ecrire_autre {α : Type} (a : Int → α) (i j : Int) (v : α) (h : j ≠ i) :
    ecrire a i v j = a j := by
  simp [ecrire, h]

/-- A run that has ended ends the same way with more turns. -/
theorem yyparse_mono (n : Nat) : ∀ (s : Etat) (r : Fin) (m : Nat),
    yyparse n s = some r → yyparse (n + m) s = some r := by
  induction n with
  | zero => intro s r m h; exact absurd h (by simp [yyparse])
  | succ n ih =>
    intro s r m h
    rw [show n + 1 + m = (n + m) + 1 by omega]
    unfold yyparse at h ⊢
    cases ht : yyparse_tour s with
    | suite s1 => rw [ht] at h; exact ih s1 r m h
    | retour s1 => rw [ht] at h; exact h
    | fatal e s1 => rw [ht] at h; exact h
    | bloque s1 => rw [ht] at h; exact h

theorem yyparse_le (n m : Nat) (s : Etat) (r : Fin) (h : yyparse n s = some r) (hnm : n ≤ m) :
    yyparse m s = some r := by
  have := yyparse_mono n s r (m - n) h
  rwa [show n + (m - n) = m by omega] at this

/-- The turn of the dispatcher when the scan position is on an operator. -/
theorem tour_op (s : Etat) (h : car s.ligne s.indexligne ∈ ops) :
    yyparse_tour s =
      yyparse_switch (car s.ligne s.indexligne) { s with indexligne := s.indexligne + 1 } := by
  unfold yyparse_tour
  rw [yylex_op s h]

/-- The turn of the dispatcher when the scan position is on the end of line. -/
theorem tour_nl (s : Etat) (h : car s.ligne s.indexligne = NL) :
    yyparse_tour s = .retour s := by
  unfold yyparse_tour
  rw [yylex_nl s h]
  rfl

/-- The turn of the dispatcher on a state given by its fields, the scan
position being on the operator `tok`. -/
theorem tour_rec (L : List Nat) (i : Nat) (M : Int → Nat) (c : Int) (S : Int → block)
    (h : Int) (e : List Nat) (o : List Sortie) (w : List Avertissement) (tok : Nat)
    (hc : car L i = tok) (hop : tok ∈ ops) :
    yyparse_tour ⟨L, i, M, c, S, h, e, o, w⟩ =
      yyparse_switch tok ⟨L, i + 1, M, c, S, h, e, o, w⟩ := by
  rw [tour_op _ (by show car L i ∈ ops; rw [hc]; exact hop)]
  show yyparse_switch (car L i) _ = _
  rw [hc]

theorem switch_plus_rec (L : List Nat) (i : Nat) (M : Int → Nat) (c : Int) (S : Int → block)
    (h : Int) (e : List Nat) (o : List Sortie) (w : List Avertissement) :
    yyparse_switch PLUS ⟨L, i, M, c, S, h, e, o, w⟩ =
      if M c ≥ 127 then .suite ⟨L, i, M, c, S, h, e, o, w ++ [.caseHorsLimite]⟩
      else .suite ⟨L, i, ecrire M c (M c + 1), c, S, h, e, o, w⟩ := rfl

theorem switch_moins_rec (L : List Nat) (i : Nat) (M : Int → Nat) (c : Int) (S : Int → block)
    (h : Int) (e : List Nat) (o : List Sortie) (w : List Avertissement) :
    yyparse_switch MOINS ⟨L, i, M, c, S, h, e, o, w⟩ =
      if M c ≤ 0 then .suite ⟨L, i, M, c, S, h, e, o, w ++ [.caseHorsLimite]⟩
      else .suite ⟨L, i, ecrire M c (M c - 1), c, S, h, e, o, w⟩ := rfl

theorem switch_droite_rec (L : List Nat) (i : Nat) (M : Int → Nat) (c : Int) (S : Int → block)
    (h : Int) (e : List Nat) (o : List Sortie) (w : List Avertissement) :
    yyparse_switch DROITE ⟨L, i, M, c, S, h, e, o, w⟩ =
      if c ≥ MAX_CASES then .suite ⟨L, i, M, c, S, h, e, o, w ++ [.curseurHorsLimite]⟩
      else .suite ⟨L, i, M, c + 1, S, h, e, o, w⟩ := rfl

theorem switch_gauche_rec (L : List Nat) (i : Nat) (M : Int → Nat) (c : Int) (S : Int → block)
    (h : Int) (e : List Nat) (o : List Sortie) (w : List Avertissement) :
    yyparse_switch GAUCHE ⟨L, i, M, c, S, h, e, o, w⟩ =
      if c ≤ 0 then .suite ⟨L, i, M, c, S, h, e, o, w ++ [.curseurHorsLimite]⟩
      else .suite ⟨L, i, M, c - 1, S, h, e, o, w⟩ := rfl

theorem switch_rbra_rec (L : List Nat) (i : Nat) (M : Int → Nat) (c : Int) (S : Int → block)
    (h : Int) (e : List Nat) (o : List Sortie) (w : List Avertissement) :
    yyparse_switch RBRA ⟨L, i, M, c, S, h, e, o, w⟩ =
      if h < 0 then .fatal (.crochetOuvrantManquant (i - 1)) ⟨L, i, M, c, S, h, e, o, w⟩
      else if M c ≠ 0 then .suite ⟨L, (S h).debut, M, c, S, h, e, o, w⟩
      else .suite ⟨L, i, M, c, S, h - 1, e, o, w⟩ := rfl

theorem switch_lbra_rec (L : List Nat) (i : Nat) (M : Int → Nat) (c : Int) (S : Int → block)
    (h : Int) (e : List Nat) (o : List Sortie) (w : List Avertissement) :
    yyparse_switch LBRA ⟨L, i, M, c, S, h, e, o, w⟩ =
      if find_lbark_boucle (L.drop i) i 1 = 0 then
        .fatal (.crochetFermantManquant (i - 1)) ⟨L, i, M, c, S, h, e, o, w⟩
      else if M c = 0 then
        .suite ⟨L, find_lbark_boucle (L.drop i) i 1 + 1, M, c, S, h, e, o, w⟩
      else if h ≥ 0 ∧ (S h).debut = i - 1 then .suite ⟨L, i, M, c, S, h, e, o, w⟩
      else if h ≥ STACK_MAX then .fatal (.pilePleine STACK_MAX) ⟨L, i, M, c, S, h, e, o, w⟩
      else
        .suite ⟨L, i, M, c, ecrire S (h + 1) ⟨i - 1, find_lbark_boucle (L.drop i) i 1⟩,
          h + 1, e, o, w⟩ := rfl

/-- The body of the loop of the line `[-]`, entered with the frame `(0, 2)` on
top of the stack and the current cell at `k + 1` : after `3 * (k + 1)` turns
the line is done, the cell is at 0, the frame is popped. -/
theorem vider_case_boucle (fin : List Nat) (k : Nat) :
    ∀ (M : Int → Nat) (c : Int) (S : Int → block) (e : List Nat) (o : List Sortie)
      (w : List Avertissement), M c = k + 1 → (S 0).debut = 0 →
    yyparse (3 * (k + 1))
        ⟨LBRA :: MOINS :: RBRA :: NL :: fin, 1, M, c, S, 0, e, o, w⟩ =
      some (.retour ⟨LBRA :: MOINS :: RBRA :: NL :: fin, 3, ecrire M c 0, c, S, -1, e, o, w⟩) := by
  induction k with
  | zero =>
    intro M c S e o w hM hS
    have t1 : yyparse_tour ⟨LBRA :: MOINS :: RBRA :: NL :: fin, 1, M, c, S, 0, e, o, w⟩ =
        .suite ⟨LBRA :: MOINS :: RBRA :: NL :: fin, 2, ecrire M c 0, c, S, 0, e, o, w⟩ := by
      rw [tour_rec _ _ _ _ _ _ _ _ _ MOINS (by rfl) (by decide), switch_moins_rec,
        if_neg (by omega), hM]
    have t2 : yyparse_tour
        ⟨LBRA :: MOINS :: RBRA :: NL :: fin, 2, ecrire M c 0, c, S, 0, e, o, w⟩ =
        .suite ⟨LBRA :: MOINS :: RBRA :: NL :: fin, 3, ecrire M c 0, c, S, -1, e, o, w⟩ := by
      rw [tour_rec _ _ _ _ _ _ _ _ _ RBRA (by rfl) (by decide), switch_rbra_rec,
        if_neg (by decide), if_neg (by rw [ecrire_meme]; simp)]
      rfl
    have t3 : yyparse_tour
        ⟨LBRA :: MOINS :: RBRA :: NL :: fin, 3, ecrire M c 0, c, S, -1, e, o, w⟩ =
        .retour ⟨LBRA :: MOINS :: RBRA :: NL :: fin, 3, ecrire M c 0, c, S, -1, e, o, w⟩ :=
      tour_nl _ rfl
    simp only [yyparse, t1, t2, t3]
  | succ k ih =>
    intro M c S e o w hM hS
    have t1 : yyparse_tour ⟨LBRA :: MOINS :: RBRA :: NL :: fin, 1, M, c, S, 0, e, o, w⟩ =
        .suite ⟨LBRA :: MOINS :: RBRA :: NL :: fin, 2, ecrire M c (k + 1), c, S, 0, e, o, w⟩ := by
      rw [tour_rec _ _ _ _ _ _ _ _ _ MOINS (by rfl) (by decide), switch_moins_rec,
        if_neg (by omega), hM]
      rfl
    have t2 : yyparse_tour
        ⟨LBRA :: MOINS :: RBRA :: NL :: fin, 2, ecrire M c (k + 1), c, S, 0, e, o, w⟩ =
        .suite ⟨LBRA :: MOINS :: RBRA :: NL :: fin, 0, ecrire M c (k + 1), c, S, 0, e, o, w⟩ := by
      rw [tour_rec _ _ _ _ _ _ _ _ _ RBRA (by rfl) (by decide), switch_rbra_rec,
        if_neg (by decide), if_pos (by rw [ecrire_meme]; omega), hS]
    have t3 : yyparse_tour
        ⟨LBRA :: MOINS :: RBRA :: NL :: fin, 0, ecrire M c (k + 1), c, S, 0, e, o, w⟩ =
        .suite ⟨LBRA :: MOINS :: RBRA :: NL :: fin, 1, ecrire M c (k + 1), c, S, 0, e, o, w⟩ := by
      rw [tour_rec _ _ _ _ _ _ _ _ _ LBRA (by rfl) (by decide), switch_lbra_rec,
        if_neg (by show ¬ (2 : Nat) = 0; decide), if_neg (by rw [ecrire_meme]; omega),
        if_pos ⟨le_refl _, hS⟩]
    rw [show 3 * (k + 1 + 1) = 3 * (k + 1) + 1 + 1 + 1 by ring, yyparse_suite _ _ _ t1,
      yyparse_suite _ _ _ t2, yyparse_suite _ _ _ t3,
      ih (ecrire M c (k + 1)) c S e o w (ecrire_meme _ _ _) hS, ecrire_ecrire]

/-- C13: on the line `[-]`, run from any state whose loop stack is empty,
whatever the value `v` of the current cell, `yyparse` returns (it has done so
after `3 * v + 2` turns, and with any larger number of turns), without a
fatal error; the current cell is at 0, every other cell and the cursor are
unchanged, the loop stack is empty again, and no warning, output or input
happened.  And the line `+++++[-]` run from the initial state leaves cell 0
at 0 and the loop stack empty. -/
theorem vider_case (s : Etat) (fin : List Nat) (hl : s.ligne = codes "[-]\n" ++ fin)
    (hi : s.indexligne = 0) (hvide : s.headstack = -1) :
    (∀ n, 3 * s.matrice s.curseur + 2 ≤ n →
      ∃ s1, yyparse n s = some (.retour s1) ∧ s1.matrice s.curseur = 0 ∧
        (∀ j, j ≠ s.curseur → s1.matrice j = s.matrice j) ∧ s1.curseur = s.curseur ∧
        s1.headstack = -1 ∧ s1.stderr = s.stderr ∧ s1.stdout = s.stdout ∧
        s1.stdin = s.stdin) ∧
    (∃ s2, yyparse 30 (initial (codes "+++++[-]\n") []) = some (.retour s2) ∧
      s2.matrice 0 = 0 ∧ s2.headstack = -1 ∧ s2.stderr = []) := by
  refine ⟨?_, ⟨_, rfl, by decide, by decide, by decide⟩⟩
  obtain ⟨L, i, M, c, S, h, e, o, w⟩ := s
  simp only at hl hi hvide
  have hL : codes "[-]\n" ++ fin = LBRA :: MOINS :: RBRA :: NL :: fin := rfl
  rw [hL] at hl
  subst hl hi hvide
  intro n hn
  show ∃ s1, _ ∧ s1.matrice c = 0 ∧ (∀ j, j ≠ c → s1.matrice j = M j) ∧ s1.curseur = c ∧
    s1.headstack = -1 ∧ s1.stderr = w ∧ s1.stdout = o ∧ s1.stdin = e
  simp only at hn
  by_cases hz : M c = 0
  · have t1 : yyparse_tour ⟨LBRA :: MOINS :: RBRA :: NL :: fin, 0, M, c, S, -1, e, o, w⟩ =
        .suite ⟨LBRA :: MOINS :: RBRA :: NL :: fin, 3, M, c, S, -1, e, o, w⟩ := by
      rw [tour_rec _ _ _ _ _ _ _ _ _ LBRA (by rfl) (by decide), switch_lbra_rec,
        if_neg (by show ¬ (2 : Nat) = 0; decide), if_pos hz]
      rfl
    have t2 : yyparse_tour ⟨LBRA :: MOINS :: RBRA :: NL :: fin, 3, M, c, S, -1, e, o, w⟩ =
        .retour ⟨LBRA :: MOINS :: RBRA :: NL :: fin, 3, M, c, S, -1, e, o, w⟩ :=
      tour_nl _ rfl
    have h2 : yyparse 2 ⟨LBRA :: MOINS :: RBRA :: NL :: fin, 0, M, c, S, -1, e, o, w⟩ =
        some (.retour ⟨LBRA :: MOINS :: RBRA :: NL :: fin, 3, M, c, S, -1, e, o, w⟩) := by
      simp only [yyparse, t1, t2]
    exact ⟨_, yyparse_le 2 n _ _ h2 (by omega), hz, fun _ _ => rfl, rfl, rfl, rfl, rfl, rfl⟩
  · obtain ⟨k, hk⟩ : ∃ k, M c = k + 1 := ⟨M c - 1, by omega⟩
    have t1 : yyparse_tour ⟨LBRA :: MOINS :: RBRA :: NL :: fin, 0, M, c, S, -1, e, o, w⟩ =
        .suite ⟨LBRA :: MOINS :: RBRA :: NL :: fin, 1, M, c, ecrire S 0 ⟨0, 2⟩, 0, e, o, w⟩ := by
      rw [tour_rec _ _ _ _ _ _ _ _ _ LBRA (by rfl) (by decide), switch_lbra_rec,
        if_neg (by show ¬ (2 : Nat) = 0; decide), if_neg hz,
        if_neg (by rintro ⟨h1, _⟩; exact absurd h1 (by decide)), if_neg (by decide)]
      rfl
    have hrun := vider_case_boucle fin k M c (ecrire S 0 ⟨0, 2⟩) e o w hk
      (by rw [ecrire_meme])
    have h2 : yyparse (3 * (k + 1) + 1)
        ⟨LBRA :: MOINS :: RBRA :: NL :: fin, 0, M, c, S, -1, e, o, w⟩ =
        some (.retour ⟨LBRA :: MOINS :: RBRA :: NL :: fin, 3, ecrire M c 0, c,
          ecrire S 0 ⟨0, 2⟩, -1, e, o, w⟩) := by
      rw [yyparse_suite _ _ _ t1, hrun]
    exact ⟨_, yyparse_le _ n _ _ h2 (by omega), ecrire_meme _ _ _,
      fun j hj => ecrire_autre _ _ _ _ hj, rfl, rfl, rfl, rfl, rfl⟩

/-- C13, from the state where the current cell holds 3: seventeen turns are
enough. -/
theorem vider_case_witness :
    ∃ s1, yyparse 17 { initial (codes "[-]\n") [] with matrice := fun _ => 3 } =
        some (.retour s1) ∧ s1.matrice 0 = 0 ∧ s1.headstack = -1 := by
  obtain ⟨s1, h1, h2, _, _, h3, _⟩ :=
    (vider_case { initial (codes "[-]\n") [] with matrice := fun _ => 3 } [] rfl rfl rfl).1
      17 (by decide)
  exact ⟨s1, h1, h2, h3⟩

/-- The body of the loop of the line `[>+<-]`, entered with the frame `(0, 5)`
on top of the stack, the current cell at `k + 1` and room for `k + 1` more
in its right neighbour: after `6 * (k + 1)` turns the line is done, the
cell is at 0, its neighbour got `k + 1` more, the frame is popped. -/
theorem deplace_boucle (fin : List Nat) (k : Nat) :
    ∀ (M : Int → Nat) (c : Int) (S : Int → block) (e : List Nat) (o : List Sortie)
      (w : List Avertissement), M c = k + 1 → M (c + 1) + (k + 1) ≤ 127 → 0 ≤ c →
      c + 1 < MAX_CASES → (S 0).debut = 0 →
    yyparse (6 * (k + 1))
        ⟨LBRA :: DROITE :: PLUS :: GAUCHE :: MOINS :: RBRA :: NL :: fin, 1, M, c, S, 0, e, o, w⟩ =
      some (.retour ⟨LBRA :: DROITE :: PLUS :: GAUCHE :: MOINS :: RBRA :: NL :: fin, 6,
        ecrire (ecrire M (c + 1) (M (c + 1) + (k + 1))) c 0, c, S, -1, e, o, w⟩) := by
  induction k with
  | zero =>
    intro M c S e o w hM hroom hc0 hc1 hS
    have hcap : ¬ c ≥ MAX_CASES := by omega
    have t1 := tour_rec (LBRA :: DROITE :: PLUS :: GAUCHE :: MOINS :: RBRA :: NL :: fin)
      1 M c S 0 e o w DROITE (by rfl) (by decide)
    rw [switch_droite_rec, if_neg hcap] at t1
    have t2 := tour_rec (LBRA :: DROITE :: PLUS :: GAUCHE :: MOINS :: RBRA :: NL :: fin)
      2 M (c + 1) S 0 e o w PLUS (by rfl) (by decide)
    rw [switch_plus_rec, if_neg (by omega)] at t2
    have t3 := tour_rec (LBRA :: DROITE :: PLUS :: GAUCHE :: MOINS :: RBRA :: NL :: fin)
      3 (ecrire M (c + 1) (M (c + 1) + 1)) (c + 1) S 0 e o w GAUCHE (by rfl) (by decide)
    rw [switch_gauche_rec, if_neg (by omega), show c + 1 - 1 = c by omega] at t3
    have hMc : ecrire M (c + 1) (M (c + 1) + 1) c = 1 := by
      rw [ecrire_autre _ _ _ _ (by omega), hM]
    have t4 := tour_rec (LBRA :: DROITE :: PLUS :: GAUCHE :: MOINS :: RBRA :: NL :: fin)
      4 (ecrire M (c + 1) (M (c + 1) + 1)) c S 0 e o w MOINS (by rfl) (by decide)
    rw [switch_moins_rec, if_neg (by omega), hMc] at t4
    have t5 := tour_rec (LBRA :: DROITE :: PLUS :: GAUCHE :: MOINS :: RBRA :: NL :: fin)
      5 (ecrire (ecrire M (c + 1) (M (c + 1) + 1)) c (1 - 1)) c S 0 e o w RBRA (by rfl)
      (by decide)
    rw [switch_rbra_rec, if_neg (by decide), if_neg (by rw [ecrire_meme]; simp)] at t5
    have t6 : yyparse_tour ⟨LBRA :: DROITE :: PLUS :: GAUCHE :: MOINS :: RBRA :: NL :: fin,
        5 + 1, ecrire (ecrire M (c + 1) (M (c + 1) + 1)) c (1 - 1), c, S, 0 - 1, e, o, w⟩ =
        .retour _ := tour_nl _ rfl
    rw [show 6 * (0 + 1) = 0 + 1 + 1 + 1 + 1 + 1 + 1 by rfl, yyparse_suite _ _ _ t1,
      yyparse_suite _ _ _ t2, yyparse_suite _ _ _ t3, yyparse_suite _ _ _ t4,
      yyparse_suite _ _ _ t5, yyparse, t6]
    rfl
  | succ k ih =>
    intro M c S e o w hM hroom hc0 hc1 hS
    have hcap : ¬ c ≥ MAX_CASES := by omega
    have t1 := tour_rec (LBRA :: DROITE :: PLUS :: GAUCHE :: MOINS :: RBRA :: NL :: fin)
      1 M c S 0 e o w DROITE (by rfl) (by decide)
    rw [switch_droite_rec, if_neg hcap] at t1
    have t2 := tour_rec (LBRA :: DROITE :: PLUS :: GAUCHE :: MOINS :: RBRA :: NL :: fin)
      2 M (c + 1) S 0 e o w PLUS (by rfl) (by decide)
    rw [switch_plus_rec, if_neg (by omega)] at t2
    have t3 := tour_rec (LBRA :: DROITE :: PLUS :: GAUCHE :: MOINS :: RBRA :: NL :: fin)
      3 (ecrire M (c + 1) (M (c + 1) + 1)) (c + 1) S 0 e o w GAUCHE (by rfl) (by decide)
    rw [switch_gauche_rec, if_neg (by omega), show c + 1 - 1 = c by omega] at t3
    have hMc : ecrire M (c + 1) (M (c + 1) + 1) c = k + 1 + 1 := by
      rw [ecrire_autre _ _ _ _ (by omega), hM]
    have t4 := tour_rec (LBRA :: DROITE :: PLUS :: GAUCHE :: MOINS :: RBRA :: NL :: fin)
      4 (ecrire M (c + 1) (M (c + 1) + 1)) c S 0 e o w MOINS (by rfl) (by decide)
    rw [switch_moins_rec, if_neg (by omega), hMc, show k + 1 + 1 - 1 = k + 1 by omega] at t4
    have t5 := tour_rec (LBRA :: DROITE :: PLUS :: GAUCHE :: MOINS :: RBRA :: NL :: fin)
      5 (ecrire (ecrire M (c + 1) (M (c + 1) + 1)) c (k + 1)) c S 0 e o w RBRA (by rfl)
      (by decide)
    rw [switch_rbra_rec, if_neg (by decide), if_pos (by rw [ecrire_meme]; omega), hS] at t5
    have t6 := tour_rec (LBRA :: DROITE :: PLUS :: GAUCHE :: MOINS :: RBRA :: NL :: fin)
      0 (ecrire (ecrire M (c + 1) (M (c + 1) + 1)) c (k + 1)) c S 0 e o w LBRA (by rfl)
      (by decide)
    rw [switch_lbra_rec, if_neg (by show ¬ (5 : Nat) = 0; decide),
      if_neg (by rw [ecrire_meme]; omega), if_pos ⟨le_refl _, hS⟩] at t6
    have hih := ih (ecrire (ecrire M (c + 1) (M (c + 1) + 1)) c (k + 1)) c S e o w
      (ecrire_meme _ _ _)
      (by rw [ecrire_autre _ _ _ _ (by omega), ecrire_meme]; omega) hc0 hc1 hS
    rw [show 6 * (k + 1 + 1) = 6 * (k + 1) + 1 + 1 + 1 + 1 + 1 + 1 by ring,
      yyparse_suite _ _ _ t1, yyparse_suite _ _ _ t2, yyparse_suite _ _ _ t3,
      yyparse_suite _ _ _ t4, yyparse_suite _ _ _ t5, yyparse_suite _ _ _ t6, hih]
    congr 3
    funext j
    simp only [ecrire]
    split_ifs <;> omega

/-- C14: on the line `[>+<-]`, run from any state whose loop stack is empty,
whose cursor `c` is a cell with a right neighbour in the tape
(`0 ≤ c`, `c + 1 < MAX_CASES`) and whose current cell `v` and right
neighbour `m` satisfy `v + m ≤ 127`, `yyparse` returns (it has done so after
`6 * v + 2` turns, and with any larger number of turns), without a fatal
error and without a warning; cell `c` is at 0, cell `c + 1` at `m + v`,
every other cell and the cursor are unchanged, and the loop stack is empty
again.  And the line `++++++++[>+<-]` run from the initial state leaves
cell 0 at 0 and cell 1 at 8. -/
theorem deplace_case (s : Etat) (fin : List Nat) (hl : s.ligne = codes "[>+<-]\n" ++ fin)
    (hi : s.indexligne = 0) (hvide : s.headstack = -1) (hc0 : 0 ≤ s.curseur)
    (hc1 : s.curseur + 1 < MAX_CASES)
    (hsomme : s.matrice s.curseur + s.matrice (s.curseur + 1) ≤ 127) :
    (∀ n, 6 * s.matrice s.curseur + 2 ≤ n →
      ∃ s1, yyparse n s = some (.retour s1) ∧ s1.matrice s.curseur = 0 ∧
        s1.matrice (s.curseur + 1) = s.matrice (s.curseur + 1) + s.matrice s.curseur ∧
        (∀ j, j ≠ s.curseur → j ≠ s.curseur + 1 → s1.matrice j = s.matrice j) ∧
        s1.curseur = s.curseur ∧ s1.headstack = -1 ∧ s1.stderr = s.stderr ∧
        s1.stdout = s.stdout ∧ s1.stdin = s.stdin) ∧
    (∃ s2, yyparse 60 (initial (codes "++++++++[>+<-]\n") []) = some (.retour s2) ∧
      s2.matrice 0 = 0 ∧ s2.matrice 1 = 8 ∧ s2.curseur = 0 ∧ s2.headstack = -1 ∧
      s2.stderr = []) := by
  refine ⟨?_, ⟨_, rfl, by decide, by decide, by decide, by decide, by decide⟩⟩
  obtain ⟨L, i, M, c, S, h, e, o, w⟩ := s
  simp only at hl hi hvide hc0 hc1 hsomme
  have hL : codes "[>+<-]\n" ++ fin =
      LBRA :: DROITE :: PLUS :: GAUCHE :: MOINS :: RBRA :: NL :: fin := rfl
  rw [hL] at hl
  subst hl hi hvide
  intro n hn
  show ∃ s1, _ ∧ s1.matrice c = 0 ∧ s1.matrice (c + 1) = M (c + 1) + M c ∧
    (∀ j, j ≠ c → j ≠ c + 1 → s1.matrice j = M j) ∧ s1.curseur = c ∧
    s1.headstack = -1 ∧ s1.stderr = w ∧ s1.stdout = o ∧ s1.stdin = e
  simp only at hn
  by_cases hz : M c = 0
  · have t1 : yyparse_tour ⟨LBRA :: DROITE :: PLUS :: GAUCHE :: MOINS :: RBRA :: NL :: fin,
        0, M, c, S, -1, e, o, w⟩ =
        .suite ⟨LBRA :: DROITE :: PLUS :: GAUCHE :: MOINS :: RBRA :: NL :: fin,
          5 + 1, M, c, S, -1, e, o, w⟩ := by
      rw [tour_rec _ _ _ _ _ _ _ _ _ LBRA (by rfl) (by decide), switch_lbra_rec,
        if_neg (by show ¬ (5 : Nat) = 0; decide), if_pos hz]
      rfl
    have t2 : yyparse_tour ⟨LBRA :: DROITE :: PLUS :: GAUCHE :: MOINS :: RBRA :: NL :: fin,
        5 + 1, M, c, S, -1, e, o, w⟩ = .retour _ := tour_nl _ rfl
    have h2 : yyparse 2 ⟨LBRA :: DROITE :: PLUS :: GAUCHE :: MOINS :: RBRA :: NL :: fin,
        0, M, c, S, -1, e, o, w⟩ =
        some (.retour ⟨LBRA :: DROITE :: PLUS :: GAUCHE :: MOINS :: RBRA :: NL :: fin,
          5 + 1, M, c, S, -1, e, o, w⟩) := by
      rw [yyparse_suite _ _ _ t1, yyparse, t2]
    exact ⟨_, yyparse_le 2 n _ _ h2 (by omega), hz, by show M (c + 1) = _; omega,
      fun _ _ _ => rfl, rfl, rfl, rfl, rfl, rfl⟩
  · obtain ⟨k, hk⟩ : ∃ k, M c = k + 1 := ⟨M c - 1, by omega⟩
    have t1 : yyparse_tour ⟨LBRA :: DROITE :: PLUS :: GAUCHE :: MOINS :: RBRA :: NL :: fin,
        0, M, c, S, -1, e, o, w⟩ =
        .suite ⟨LBRA :: DROITE :: PLUS :: GAUCHE :: MOINS :: RBRA :: NL :: fin,
          1, M, c, ecrire S 0 ⟨0, 5⟩, 0, e, o, w⟩ := by
      rw [tour_rec _ _ _ _ _ _ _ _ _ LBRA (by rfl) (by decide), switch_lbra_rec,
        if_neg (by show ¬ (5 : Nat) = 0; decide), if_neg hz,
        if_neg (by rintro ⟨h1, _⟩; exact absurd h1 (by decide)), if_neg (by decide)]
      rfl
    have hrun := deplace_boucle fin k M c (ecrire S 0 ⟨0, 5⟩) e o w hk (by omega) hc0 hc1
      (by rw [ecrire_meme])
    have h2 : yyparse (6 * (k + 1) + 1)
        ⟨LBRA :: DROITE :: PLUS :: GAUCHE :: MOINS :: RBRA :: NL :: fin,
          0, M, c, S, -1, e, o, w⟩ =
        some (.retour ⟨LBRA :: DROITE :: PLUS :: GAUCHE :: MOINS :: RBRA :: NL :: fin, 6,
          ecrire (ecrire M (c + 1) (M (c + 1) + (k + 1))) c 0, c, ecrire S 0 ⟨0, 5⟩, -1,
          e, o, w⟩) := by
      rw [yyparse_suite _ _ _ t1]
      exact hrun
    refine ⟨_, yyparse_le _ n _ _ h2 (by omega), ecrire_meme _ _ _, ?_, ?_,
      rfl, rfl, rfl, rfl, rfl⟩
    · show ecrire (ecrire M (c + 1) (M (c + 1) + (k + 1))) c 0 (c + 1) = _
      rw [ecrire_autre _ _ _ _ (by omega), ecrire_meme, hk]
    · intro j hj1 hj2
      show ecrire (ecrire M (c + 1) (M (c + 1) + (k + 1))) c 0 j = _
      rw [ecrire_autre _ _ _ _ hj1, ecrire_autre _ _ _ _ hj2]

/-- C14, from the state where cell 0 holds 3 and cell 1 holds 4. -/
theorem deplace_case_witness :
    ∃ s1, yyparse 20
        { initial (codes "[>+<-]\n") [] with matrice := fun j => if j = 0 then 3 else 4 } =
        some (.retour s1) ∧ s1.matrice 0 = 0 ∧ s1.matrice 1 = 7 ∧ s1.headstack = -1 := by
  obtain ⟨s1, h1, h2, h3, _, _, h4, _⟩ :=
    (deplace_case
      { initial (codes "[>+<-]\n") [] with matrice := fun j => if j = 0 then 3 else 4 } []
      rfl rfl rfl (by decide) (by decide) (by decide)).1 20 (by decide)
  exact ⟨s1, h1, h2, h3, h4⟩

/-! ## The loop stack along a line -/

theorem car_nil (i : Nat) : car [] i = NUL := by
  unfold car; simp

theorem car_cons_zero (c : Nat) (l : List Nat) : car (c :: l) 0 = c := by
  unfold car; simp

theorem car_cons_succ (c : Nat) (l : List Nat) (i : Nat) : car (c :: l) (i + 1) = car l i := by
  unfold car; simp

/-- Before `strlen` no character is NUL. -/
theorem car_lt_strlen (l : List Nat) : ∀ k, k < strlen l → car l k ≠ NUL := by
  induction l with
  | nil => intro k hk; simp [strlen] at hk
  | cons c l ih =>
    intro k hk
    unfold strlen at hk
    by_cases hc : c = NUL
    · rw [if_pos hc] at hk; omega
    · rw [if_neg hc] at hk
      cases k with
      | zero => rw [car_cons_zero]; exact hc
      | succ k => rw [car_cons_succ]; exact ih k (by omega)

/-- At `strlen` the character is NUL. -/
theorem car_strlen (l : List Nat) : car l (strlen l) = NUL := by
  induction l with
  | nil => exact car_nil _
  | cons c l ih =>
    unfold strlen
    by_cases hc : c = NUL
    · rw [if_pos hc, car_cons_zero]; exact hc
    · rw [if_neg hc, car_cons_succ]; exact ih

/-- A position whose characters up to it are not NUL is before `strlen`. -/
theorem lt_strlen_of_car (l : List Nat) : ∀ k, (∀ x, x ≤ k → car l x ≠ NUL) → k < strlen l := by
  intro k h
  by_contra hcon
  exact h (strlen l) (by omega) (car_strlen l)

theorem solde_append (a b : List Nat) : solde (a ++ b) = solde a + solde b := by
  induction a with
  | nil => simp [solde_nil]
  | cons c a ih => rw [List.cons_append, solde_cons, solde_cons, ih]; ring

theorem niveau_zero (l : List Nat) : niveau l 0 = 0 := by
  simp [niveau, solde_nil]

/-- The level after a character is the level before it plus its `delta`. -/
theorem niveau_succ (l : List Nat) : ∀ x, niveau l (x + 1) = niveau l x + delta (car l x) := by
  induction l with
  | nil => intro x; simp [niveau, solde_nil, car_nil, delta, NUL, LBRA, RBRA]
  | cons c l ih =>
    intro x
    cases x with
    | zero =>
      simp only [niveau, List.take_succ_cons, List.take_zero, solde_cons, solde_nil,
        car_cons_zero, delta]
      ring
    | succ x =>
      have := ih x
      simp only [niveau, List.take_succ_cons, solde_cons, car_cons_succ] at this ⊢
      rw [this]; ring

/-- The level at `a + k` is the level at `a` plus the balance of the `k`
characters from `a` on. -/
theorem niveau_add (l : List Nat) (a k : Nat) :
    niveau l (a + k) = niveau l a + solde ((l.drop a).take k) := by
  unfold niveau
  rw [List.take_add, solde_append]

theorem delta_op (c : Nat) (h1 : c ≠ LBRA) (h2 : c ≠ RBRA) : delta c = 0 := by
  simp [delta, h1, h2]

theorem delta_lbra : delta LBRA = 1 := by decide

theorem delta_rbra : delta RBRA = -1 := by decide

/-- Where the skip loop of `yylex` stops: on the first character, from the
start, that `strchr` finds. -/
theorem yylex_boucle_spec (cs : List Nat) : ∀ i,
    i ≤ yylex_boucle cs i ∧
    (∀ x, x < yylex_boucle cs i - i → strchr_ops (cs.getD x NUL) = false) ∧
    strchr_ops (cs.getD (yylex_boucle cs i - i) NUL) = true := by
  induction cs with
  | nil =>
    intro i
    refine ⟨le_refl _, ?_, ?_⟩
    · intro x hx; simp [yylex_boucle] at hx
    · simp [yylex_boucle, strchr_ops]
  | cons c cs ih =>
    intro i
    unfold yylex_boucle
    by_cases hc : strchr_ops c = true
    · rw [if_pos hc]
      refine ⟨le_refl _, ?_, ?_⟩
      · intro x hx; omega
      · simpa using hc
    · rw [if_neg hc]
      obtain ⟨h1, h2, h3⟩ := ih (i + 1)
      refine ⟨by omega, ?_, ?_⟩
      · intro x hx
        cases x with
        | zero => simpa using hc
        | succ x =>
          rw [List.getD_cons_succ]
          exact h2 x (by omega)
      · rw [show yylex_boucle cs (i + 1) - i = (yylex_boucle cs (i + 1) - (i + 1)) + 1 by omega,
          List.getD_cons_succ]
        exact h3

theorem getD_drop (l : List Nat) (i x : Nat) : (l.drop i).getD x NUL = car l (i + x) := by
  unfold car
  simp [List.getD_eq_getElem?_getD, List.getElem?_drop]

/-- The two ways `yylex` goes: the scan position is on the end-of-line marker
and nothing moves, or the scan position goes just after the first character,
from it on, that is an operator or the NUL, and that character is returned. -/
theorem yylex_cas (s : Etat) :
    (car s.ligne s.indexligne = NL ∧ yylex s = (0, s)) ∨
    (car s.ligne s.indexligne ≠ NL ∧ ∃ j, s.indexligne ≤ j ∧
      (∀ x, s.indexligne ≤ x → x < j → strchr_ops (car s.ligne x) = false) ∧
      strchr_ops (car s.ligne j) = true ∧
      yylex s = (car s.ligne j, { s with indexligne := j + 1 })) := by
  by_cases hnl : car s.ligne s.indexligne = NL
  · exact Or.inl ⟨hnl, yylex_nl s hnl⟩
  · right
    obtain ⟨h1, h2, h3⟩ := yylex_boucle_spec (s.ligne.drop s.indexligne) s.indexligne
    refine ⟨hnl, yylex_boucle (s.ligne.drop s.indexligne) s.indexligne, h1, ?_, ?_, ?_⟩
    · intro x hx1 hx2
      have := h2 (x - s.indexligne) (by omega)
      rw [getD_drop, show s.indexligne + (x - s.indexligne) = x by omega] at this
      exact this
    · rw [getD_drop] at h3
      rw [show s.indexligne +
        (yylex_boucle (s.ligne.drop s.indexligne) s.indexligne - s.indexligne) =
        yylex_boucle (s.ligne.drop s.indexligne) s.indexligne by omega] at h3
      exact h3
    · unfold yylex
      rw [if_neg hnl]

theorem strchr_ops_false (c : Nat) (h : strchr_ops c = false) : c ∉ ops ∧ c ≠ NUL := by
  unfold strchr_ops at h
  simpa using h

theorem strchr_ops_true (c : Nat) (h : strchr_ops c = true) : c ∈ ops ∨ c = NUL := by
  unfold strchr_ops at h
  simpa using h

theorem delta_inerte (c : Nat) (h : strchr_ops c = false) : delta c = 0 := by
  obtain ⟨h1, _⟩ := strchr_ops_false c h
  apply delta_op
  · intro e; rw [e] at h1; exact h1 (by decide)
  · intro e; rw [e] at h1; exact h1 (by decide)

/-- Characters that `yylex` skips do not change the level. -/
theorem niveau_inertes (l : List Nat) (i : Nat) : ∀ j, i ≤ j →
    (∀ x, i ≤ x → x < j → strchr_ops (car l x) = false) → niveau l j = niveau l i := by
  intro j
  induction j with
  | zero => intro h _; rw [show i = 0 by omega]
  | succ j ih =>
    intro h hin
    by_cases hij : i = j + 1
    · rw [hij]
    · rw [niveau_succ, ih (by omega) (fun x h1 h2 => hin x h1 (by omega)),
        delta_inerte _ (hin j (by omega) (by omega))]
      ring

/-- A position after a position of the text, with no NUL from there to it, is
a position of the text. -/
theorem lt_strlen_of_lt (l : List Nat) (k q : Nat) (hk : k < strlen l)
    (h : ∀ x, k < x → x ≤ q → car l x ≠ NUL) : q < strlen l := by
  by_contra hcon
  exact h (strlen l) hk (by omega) (car_strlen l)

/-- The matching closer in terms of levels: it brings the level back to what
it was just after the `[`, the level staying at least that in between, and
no NUL lies between them. -/
theorem ferme_niveau (l : List Nat) (p q : Nat) (h : ferme l p q) (hp : car l p = LBRA) :
    niveau l q = niveau l p + 1 ∧ (∀ x, p < x → x ≤ q → niveau l p + 1 ≤ niveau l x) ∧
    (∀ x, p < x → x ≤ q → car l x ≠ NUL) := by
  obtain ⟨hdec, hlen⟩ := ferme_decoupe l p q h
  obtain ⟨hpq, hq, hnul, heq⟩ := h
  obtain ⟨hs0, hspre⟩ := (equilibre_iff_solde _).1 heq
  have hp1 : niveau l (p + 1) = niveau l p + 1 := by
    rw [niveau_succ, hp, delta_lbra]
  have htake : ∀ k, k ≤ q - (p + 1) →
      (l.drop (p + 1)).take k = (entre l p q).take k := by
    intro k hk
    unfold entre
    rw [List.take_take, min_eq_left hk]
  have hniv : ∀ k, k ≤ q - (p + 1) →
      niveau l (p + 1 + k) = niveau l p + 1 + solde ((entre l p q).take k) := by
    intro k hk
    rw [niveau_add, htake k hk, hp1]
  refine ⟨?_, ?_, ?_⟩
  · have := hniv (q - (p + 1)) (le_refl _)
    rw [show p + 1 + (q - (p + 1)) = q by omega, ← hlen, List.take_length, hs0] at this
    omega
  · intro x hx1 hx2
    have := hniv (x - (p + 1)) (by omega)
    rw [show p + 1 + (x - (p + 1)) = x by omega] at this
    have h0 := hspre (x - (p + 1)) (by omega)
    omega
  · intro x hx1 hx2
    by_cases hxq : x = q
    · rw [hxq, hq]; decide
    · intro hcar
      apply hnul
      have hk : x - (p + 1) < (entre l p q).length := by omega
      have : car l x = (entre l p q)[x - (p + 1)] := by
        have e : car l x = (l.drop (p + 1)).getD (x - (p + 1)) NUL := by
          rw [getD_drop, show p + 1 + (x - (p + 1)) = x by omega]
        rw [e, hdec, List.getD_eq_getElem?_getD, List.getElem?_append_left hk,
          List.getElem?_eq_getElem hk]
        rfl
      rw [← hcar, this]
      exact List.getElem_mem _

theorem switch_plus (t : Etat) :
    yyparse_switch PLUS t =
      if t.matrice t.curseur ≥ 127 then
        .suite { t with stderr := t.stderr ++ [.caseHorsLimite] }
      else .suite { t with matrice := ecrire t.matrice t.curseur (t.matrice t.curseur + 1) } :=
  rfl

theorem switch_moins (t : Etat) :
    yyparse_switch MOINS t =
      if t.matrice t.curseur ≤ 0 then
        .suite { t with stderr := t.stderr ++ [.caseHorsLimite] }
      else .suite { t with matrice := ecrire t.matrice t.curseur (t.matrice t.curseur - 1) } :=
  rfl

theorem switch_droite (t : Etat) :
    yyparse_switch DROITE t =
      if t.curseur ≥ MAX_CASES then
        .suite { t with stderr := t.stderr ++ [.curseurHorsLimite] }
      else .suite { t with curseur := t.curseur + 1 } := rfl

theorem switch_gauche (t : Etat) :
    yyparse_switch GAUCHE t =
      if t.curseur ≤ 0 then
        .suite { t with stderr := t.stderr ++ [.curseurHorsLimite] }
      else .suite { t with curseur := t.curseur - 1 } := rfl

theorem switch_point (t : Etat) :
    yyparse_switch POINT t =
      .suite { t with stdout := t.stdout ++ [.octet (t.matrice t.curseur)] } := rfl

/-- The state in which `,` leaves the cell and the input before the loop that
empties `stdin`. -/
theorem switch_virgule (t : Etat) :
    yyparse_switch VIRGULE t =
      match vider (if toChar (getchar t.stdin).1 = EOF then ungetc NL (getchar t.stdin).2
          else (getchar t.stdin).2) with
      | none =>
        .bloque { t with
          stdout := t.stdout ++ [.invite t.curseur],
          matrice := ecrire t.matrice t.curseur
            (if toChar (getchar t.stdin).1 = EOF then 0 else toUChar (toChar (getchar t.stdin).1)),
          stdin := [] }
      | some reste2 =>
        .suite { t with
          stdout := t.stdout ++ [.invite t.curseur],
          matrice := ecrire t.matrice t.curseur
            (if toChar (getchar t.stdin).1 = EOF then 0 else toUChar (toChar (getchar t.stdin).1)),
          stdin := reste2 } := by
  unfold yyparse_switch
  simp only [show ¬ VIRGULE = PLUS by decide, show ¬ VIRGULE = MOINS by decide,
    show ¬ VIRGULE = DROITE by decide, show ¬ VIRGULE = GAUCHE by decide, if_false, if_true]
  by_cases h : toChar (getchar t.stdin).1 = EOF
  · simp only [h, if_true]
  · simp only [h, if_false]

/-- The six operators that are not brackets touch neither the line, nor the
scan position, nor the loop stack. -/
theorem switch_simple (tok : Nat) (t s1 : Etat)
    (htok : tok = PLUS ∨ tok = MOINS ∨ tok = DROITE ∨ tok = GAUCHE ∨ tok = VIRGULE ∨ tok = POINT)
    (h : yyparse_switch tok t = .suite s1) :
    s1.ligne = t.ligne ∧ s1.indexligne = t.indexligne ∧ s1.stack = t.stack ∧
      s1.headstack = t.headstack := by
  rcases htok with rfl | rfl | rfl | rfl | rfl | rfl
  · rw [switch_plus] at h
    split_ifs at h <;> (injection h with h; subst h; exact ⟨rfl, rfl, rfl, rfl⟩)
  · rw [switch_moins] at h
    split_ifs at h <;> (injection h with h; subst h; exact ⟨rfl, rfl, rfl, rfl⟩)
  · rw [switch_droite] at h
    split_ifs at h <;> (injection h with h; subst h; exact ⟨rfl, rfl, rfl, rfl⟩)
  · rw [switch_gauche] at h
    split_ifs at h <;> (injection h with h; subst h; exact ⟨rfl, rfl, rfl, rfl⟩)
  · rw [switch_virgule] at h
    split at h
    · exact absurd h (by simp)
    · injection h with h; subst h; exact ⟨rfl, rfl, rfl, rfl⟩
  · rw [switch_point] at h
    injection h with h; subst h; exact ⟨rfl, rfl, rfl, rfl⟩

/-- The members of `ops`. -/
theorem mem_ops (c : Nat) (h : c ∈ ops) :
    (c = PLUS ∨ c = MOINS ∨ c = DROITE ∨ c = GAUCHE ∨ c = VIRGULE ∨ c = POINT) ∨
      c = LBRA ∨ c = RBRA := by
  simp only [ops, List.mem_cons, List.mem_singleton, List.not_mem_nil, or_false] at h
  tauto

/-- On an operator the `switch` never leaves `yyparse`. -/
theorem switch_op_retour (tok : Nat) (t s1 : Etat) (htok : tok ∈ ops) :
    yyparse_switch tok t ≠ .retour s1 := by
  intro h
  rcases mem_ops tok htok with (rfl | rfl | rfl | rfl | rfl | rfl) | rfl | rfl
  · rw [switch_plus] at h; split_ifs at h
  · rw [switch_moins] at h; split_ifs at h
  · rw [switch_droite] at h; split_ifs at h
  · rw [switch_gauche] at h; split_ifs at h
  · rw [switch_virgule] at h; split at h <;> exact absurd h (by simp)
  · rw [switch_point] at h; exact absurd h (by simp)
  · rw [switch_lbra] at h; split_ifs at h
  · rw [switch_rbra] at h; split_ifs at h

/-- Where the token read by `yylex` lies with respect to the top frame. -/
theorem apres_yylex (l : List Nat) (i : Nat) (S : Int → block) (h : Int) (nonNul : Prop)
    (hp : pileValideC l i S h nonNul) (j : Nat) (hij : i ≤ j)
    (hin : ∀ x, i ≤ x → x < j → strchr_ops (car l x) = false)
    (_htrue : strchr_ops (car l j) = true) :
    j ≤ strlen l ∧ niveau l j = niveau l i ∧
    (0 ≤ h → (j = (S h).debut ∧ nonNul) ∨
      ((S h).debut < j ∧ j ≤ (S h).fin ∧ niveau l j = niveau l (S h).debut + 1)) := by
  obtain ⟨_, hi, hF, _, hT⟩ := hp
  have hniv := niveau_inertes l i j hij hin
  refine ⟨?_, hniv, ?_⟩
  · by_contra hcon
    have := hin (strlen l) hi (by omega)
    rw [car_strlen] at this
    exact absurd this (by decide)
  · intro hh
    obtain ⟨hdf, hfl, hcd, hcf, _, _⟩ := hF h hh (le_refl _)
    rcases hT hh with ⟨h1, h2⟩ | ⟨h1, h2, h3⟩
    · left
      refine ⟨?_, h2⟩
      by_contra hne
      have := hin i (le_refl _) (by omega)
      rw [h1, hcd] at this
      exact absurd this (by decide)
    · right
      refine ⟨by omega, ?_, by rw [hniv, h3]⟩
      by_contra hcon
      have := hin (S h).fin h2 (by omega)
      rw [hcf] at this
      exact absurd this (by decide)

/-- When `yyparse` returns, the loop stack that described the enclosing loops
is empty. -/
theorem pileValide_retour (s s1 : Etat) (hv : ligneValide s.ligne) (hp : pileValide s)
    (h : yyparse_tour s = .retour s1) :
    s1.headstack = -1 ∧ s1 = { s with indexligne := s1.indexligne } := by
  have hvide : ∀ t : Etat, t.headstack = s.headstack → ¬ 0 ≤ s.headstack → t.headstack = -1 := by
    intro t ht hneg
    have := hp.1
    omega
  rcases yylex_cas s with ⟨hnl, hlex⟩ | ⟨hnl, j, hij, hin, htrue, hlex⟩
  · have ht : yyparse_tour s = .retour s := tour_nl s hnl
    rw [ht] at h
    injection h with h
    subst h
    refine ⟨hvide s rfl ?_, rfl⟩
    intro hh
    obtain ⟨_, _, hF, _, hT⟩ := hp
    obtain ⟨hdf, hfl, hcd, hcf, _, _⟩ := hF _ hh (le_refl _)
    rcases hT hh with ⟨h1, _⟩ | ⟨h1, h2, _⟩
    · rw [h1, hcd] at hnl; exact absurd hnl (by decide)
    · by_cases he : s.indexligne = (s.stack s.headstack).fin
      · rw [he, hcf] at hnl; exact absurd hnl (by decide)
      · exact hv s.indexligne (by omega) hnl
  · have ht : yyparse_tour s =
        yyparse_switch (car s.ligne j) { s with indexligne := j + 1 } := by
      unfold yyparse_tour; rw [hlex]
    rw [ht] at h
    rcases strchr_ops_true _ htrue with hop | hnul
    · exact absurd h (switch_op_retour _ _ _ hop)
    · rw [hnul] at h
      have e : yyparse_switch NUL { s with indexligne := j + 1 } =
          .retour { s with indexligne := j + 1 } := rfl
      rw [e] at h
      injection h with h
      subst h
      refine ⟨hvide _ rfl ?_, rfl⟩
      intro hh
      obtain ⟨_, _, hR⟩ := apres_yylex _ _ _ _ _ hp j hij hin htrue
      obtain ⟨_, _, hF, _, _⟩ := hp
      obtain ⟨hdf, hfl, hcd, hcf, _, _⟩ := hF _ hh (le_refl _)
      rcases hR hh with ⟨h1, _⟩ | ⟨_, h2, _⟩
      · rw [h1, hcd] at hnul; exact absurd hnul (by decide)
      · exact car_lt_strlen _ j (by omega) hnul

/-- A turn of the dispatcher that ends by `break` keeps the line and keeps the
loop stack a description of the loops that enclose the scan position. -/
theorem pileValide_tour (s s1 : Etat) (hp : pileValide s) (h : yyparse_tour s = .suite s1) :
    s1.ligne = s.ligne ∧ pileValide s1 := by
  rcases yylex_cas s with ⟨hnl, hlex⟩ | ⟨hnl, j, hij, hin, htrue, hlex⟩
  · rw [tour_nl s hnl] at h
    exact absurd h (by simp)
  have ht : yyparse_tour s =
      yyparse_switch (car s.ligne j) { s with indexligne := j + 1 } := by
    unfold yyparse_tour; rw [hlex]
  rw [ht] at h
  obtain ⟨hjl, hnj, hR⟩ := apres_yylex _ _ _ _ _ hp j hij hin htrue
  obtain ⟨hm1, hi, hF, hN, hT⟩ := hp
  rcases strchr_ops_true _ htrue with hop | hnul
  swap
  · rw [hnul] at h
    have e : yyparse_switch NUL { s with indexligne := j + 1 } =
        .retour { s with indexligne := j + 1 } := rfl
    rw [e] at h
    exact absurd h (by simp)
  have hjs : j < strlen s.ligne := by
    have hne : car s.ligne j ≠ NUL := by
      intro e; rw [e] at hop; exact absurd hop (by decide)
    by_contra hcon
    have : j = strlen s.ligne := by omega
    rw [this] at hne
    exact hne (car_strlen _)
  rcases mem_ops _ hop with hsimple | hlb | hrb
  · -- an operator that is not a bracket
    obtain ⟨e1, e2, e3, e4⟩ := switch_simple _ _ _ hsimple h
    have e1 : s1.ligne = s.ligne := e1
    have e2 : s1.indexligne = j + 1 := e2
    have e3 : s1.stack = s.stack := e3
    have e4 : s1.headstack = s.headstack := e4
    have hd0 : delta (car s.ligne j) = 0 := by
      rcases hsimple with e | e | e | e | e | e <;> rw [e] <;> decide
    refine ⟨e1, ?_⟩
    show pileValideC s1.ligne s1.indexligne s1.stack s1.headstack _
    rw [e1, e2, e3, e4]
    refine ⟨hm1, by show j + 1 ≤ _; omega, hF, hN, ?_⟩
    intro hh
    obtain ⟨hdf, hfl, hcd, hcf, _, _⟩ := hF _ hh (le_refl _)
    right
    rcases hR hh with ⟨h1, _⟩ | ⟨h1, h2, h3⟩
    · rw [h1, hcd] at hd0; exact absurd hd0 (by decide)
    · have hne : j ≠ (s.stack s.headstack).fin := by
        intro e; rw [e, hcf] at hd0; exact absurd hd0 (by decide)
      refine ⟨by show _ < j + 1; omega, by show j + 1 ≤ _; omega, ?_⟩
      show niveau s.ligne (j + 1) = _
      rw [niveau_succ, hd0, h3]; ring
  · -- a loop-open
    rw [hlb, switch_lbra] at h
    by_cases h0 : find_lbark { s with indexligne := j + 1 } = 0
    · rw [if_pos h0] at h; exact absurd h (by simp)
    rw [if_neg h0] at h
    have hferme : ferme s.ligne j (find_lbark { s with indexligne := j + 1 }) :=
      ferme_of_find_lbark { s with indexligne := j + 1 } j rfl h0
    obtain ⟨hq1, hq2, hq3⟩ := ferme_niveau _ _ _ hferme hlb
    have hjq := hferme.1
    have hcq := hferme.2.1
    have hqs := lt_strlen_of_lt _ j _ hjs hq3
    have hnj1 : niveau s.ligne (j + 1) = niveau s.ligne j + 1 := by
      rw [niveau_succ, hlb, delta_lbra]
    -- the closer lies before the closer of the top frame
    have hqf : 0 ≤ s.headstack → (s.stack s.headstack).debut < j →
        j ≤ (s.stack s.headstack).fin →
        niveau s.ligne j = niveau s.ligne (s.stack s.headstack).debut + 1 →
        find_lbark { s with indexligne := j + 1 } < (s.stack s.headstack).fin := by
      intro hh _ h2 h3
      obtain ⟨hdf, hfl, hcd, hcf, hnf, _⟩ := hF _ hh (le_refl _)
      have hne : j ≠ (s.stack s.headstack).fin := by
        intro e; rw [e, hcf] at hlb; exact absurd hlb (by decide)
      by_contra hcon
      have := hq2 (s.stack s.headstack).fin (by omega) (by omega)
      omega
    by_cases hz : s.matrice s.curseur = 0
    · rw [if_pos hz] at h
      injection h with h
      subst h
      refine ⟨rfl, ?_⟩
      show pileValideC s.ligne (find_lbark _ + 1) s.stack s.headstack _
      refine ⟨hm1, by omega, hF, hN, ?_⟩
      intro hh
      right
      rcases hR hh with ⟨_, h2⟩ | ⟨h1, h2, h3⟩
      · exact absurd hz h2
      · have := hqf hh h1 h2 h3
        refine ⟨by omega, by omega, ?_⟩
        rw [niveau_succ, hcq, delta_rbra, hq1, h3]; ring
    rw [if_neg hz] at h
    by_cases hre : s.headstack ≥ 0 ∧ (s.stack s.headstack).debut = j + 1 - 1
    · rw [if_pos hre] at h
      injection h with h
      subst h
      refine ⟨rfl, ?_⟩
      show pileValideC s.ligne (j + 1) s.stack s.headstack _
      refine ⟨hm1, by omega, hF, hN, ?_⟩
      intro hh
      obtain ⟨hdf, hfl, hcd, hcf, _, _⟩ := hF _ hh (le_refl _)
      right
      have hdj : (s.stack s.headstack).debut = j := by
        have := hre.2; omega
      refine ⟨by omega, by omega, ?_⟩
      rw [hnj1, hdj]
    rw [if_neg hre] at h
    by_cases hov : s.headstack ≥ STACK_MAX
    · rw [if_pos hov] at h; exact absurd h (by simp)
    rw [if_neg hov] at h
    injection h with h
    subst h
    -- the frame pushed
    have hnew : cadreValide s.ligne ⟨j, find_lbark { s with indexligne := j + 1 }⟩ :=
      ⟨hjq, hqs, hlb, hcq, hq1, fun x h1 h2 => hq2 x h1 h2⟩
    have hnorm : 0 ≤ s.headstack → (s.stack s.headstack).debut < j ∧
        j ≤ (s.stack s.headstack).fin ∧
        niveau s.ligne j = niveau s.ligne (s.stack s.headstack).debut + 1 := by
      intro hh
      rcases hR hh with ⟨h1, _⟩ | h1
      · exact absurd ⟨hh, by rw [← h1]; omega⟩ hre
      · exact h1
    refine ⟨rfl, ?_⟩
    show pileValideC s.ligne (j + 1)
      (ecrire s.stack (s.headstack + 1) ⟨j + 1 - 1, find_lbark _⟩) (s.headstack + 1) _
    rw [Nat.add_sub_cancel]
    refine ⟨by omega, by omega, ?_, ?_, ?_⟩
    · intro k hk0 hk
      by_cases hkh : k = s.headstack + 1
      · rw [hkh, ecrire_meme]
        exact hnew
      · rw [ecrire_autre _ _ _ _ hkh]
        exact hF k hk0 (by omega)
    · intro k hk0 hk
      rw [ecrire_autre _ _ k _ (by omega)]
      by_cases hkh : k = s.headstack
      · rw [hkh, ecrire_meme]
        have hh : 0 ≤ s.headstack := by omega
        obtain ⟨g1, g2, g3⟩ := hnorm hh
        exact ⟨g1, hqf hh g1 g2 g3, g3⟩
      · rw [ecrire_autre _ _ (k + 1) _ (by omega)]
        exact hN k hk0 (by omega)
    · intro _
      right
      rw [ecrire_meme]
      exact ⟨by show j < j + 1; omega, by show j + 1 ≤ find_lbark _; omega, hnj1⟩
  · -- a loop-close
    rw [hrb, switch_rbra] at h
    by_cases hneg : s.headstack < 0
    · rw [if_pos hneg] at h; exact absurd h (by simp)
    rw [if_neg hneg] at h
    have hh : 0 ≤ s.headstack := by omega
    obtain ⟨hdf, hfl, hcd, hcf, hnf, hin2⟩ := hF _ hh (le_refl _)
    have hjf : (s.stack s.headstack).debut < j ∧ j = (s.stack s.headstack).fin := by
      rcases hR hh with ⟨h1, _⟩ | ⟨h1, h2, h3⟩
      · rw [h1, hcd] at hrb; exact absurd hrb (by decide)
      · refine ⟨h1, ?_⟩
        by_contra hne
        have := hin2 (j + 1) (by omega) (by omega)
        rw [niveau_succ, hrb, delta_rbra] at this
        omega
    by_cases hz : s.matrice s.curseur ≠ 0
    · rw [if_pos hz] at h
      injection h with h
      subst h
      refine ⟨rfl, ?_⟩
      show pileValideC s.ligne (s.stack s.headstack).debut s.stack s.headstack _
      exact ⟨hm1, by omega, hF, hN, fun _ => Or.inl ⟨rfl, hz⟩⟩
    · rw [if_neg hz] at h
      injection h with h
      subst h
      refine ⟨rfl, ?_⟩
      show pileValideC s.ligne (j + 1) s.stack (s.headstack - 1) _
      refine ⟨by omega, by omega, fun k hk0 hk => hF k hk0 (by omega),
        fun k hk0 hk => hN k hk0 (by omega), ?_⟩
      intro hh1
      right
      obtain ⟨g1, g2, g3⟩ := hN (s.headstack - 1) hh1 (by omega)
      rw [show s.headstack - 1 + 1 = s.headstack by ring] at g1 g2 g3
      refine ⟨by omega, by omega, ?_⟩
      rw [niveau_succ, hrb, delta_rbra, hjf.2, hnf, g3]; ring

/-- With an empty loop stack and the scan position at the start of the line,
the loop stack describes the (no) enclosing loops. -/
theorem pileValide_debut (s : Etat) (hi : s.indexligne = 0) (hvide : s.headstack = -1) :
    pileValide s := by
  unfold pileValide pileValideC
  rw [hi, hvide]
  refine ⟨le_refl _, Nat.zero_le _, ?_, ?_, ?_⟩
  · intro k h1 h2; omega
  · intro k h1 h2; omega
  · intro h; omega

/-- Along a run of `yyparse` that returns, the loop stack ends empty. -/
theorem pileValide_yyparse (n : Nat) : ∀ (s s1 : Etat), ligneValide s.ligne → pileValide s →
    yyparse n s = some (.retour s1) → s1.headstack = -1 := by
  induction n with
  | zero => intro s s1 _ _ h; exact absurd h (by simp [yyparse])
  | succ n ih =>
    intro s s1 hv hp h
    unfold yyparse at h
    cases ht : yyparse_tour s with
    | suite s2 =>
      rw [ht] at h
      obtain ⟨hl, hp2⟩ := pileValide_tour s s2 hp ht
      exact ih s2 s1 (by rw [hl]; exact hv) hp2 h
    | retour s2 =>
      rw [ht] at h
      injection h with h
      injection h with h
      subst h
      exact (pileValide_retour s s2 hv hp ht).1
    | fatal e s2 => rw [ht] at h; exact absurd h (by simp)
    | bloque s2 => rw [ht] at h; exact absurd h (by simp)

/-- In what `fgets` takes, the end of line can only be the last byte. -/
theorem fgets_lire_nl (n : Nat) : ∀ (stdin : List Nat) (k : Nat),
    k + 1 < (fgets_lire n stdin).1.length → car (fgets_lire n stdin).1 k ≠ NL := by
  induction n with
  | zero => intro stdin k hk; simp [fgets_lire] at hk
  | succ n ih =>
    intro stdin k hk
    cases stdin with
    | nil => simp [fgets_lire] at hk
    | cons b reste =>
      unfold fgets_lire at hk ⊢
      by_cases hb : b = NL
      · rw [if_pos hb] at hk; simp at hk
      · rw [if_neg hb] at hk ⊢
        cases k with
        | zero => rw [car_cons_zero]; exact hb
        | succ k =>
          rw [car_cons_succ]
          exact ih reste k (by simpa using hk)

theorem strlen_append_le (l r : List Nat) : strlen (l ++ NUL :: r) ≤ l.length := by
  induction l with
  | nil => simp [strlen]
  | cons c l ih =>
    rw [List.cons_append]
    unfold strlen
    split
    · omega
    · simp only [List.length_cons]; omega

theorem car_append_left (l r : List Nat) (k : Nat) (h : k < l.length) :
    car (l ++ r) k = car l k := by
  unfold car
  rw [List.getD_eq_getElem?_getD, List.getD_eq_getElem?_getD, List.getElem?_append_left h]

/-- The buffer that `fgets` leaves is a line: the end-of-line marker is at
most the last character of its text; and `fgets` does not touch the loop
stack. -/
theorem fgets_ligneValide (s s1 : Etat) (h : fgets s = some s1) :
    ligneValide s1.ligne ∧ s1.headstack = s.headstack := by
  unfold fgets at h
  split at h
  · exact absurd h (by simp)
  · injection h with h
    subst h
    refine ⟨?_, rfl⟩
    intro k hk
    have hle := strlen_append_le (fgets_lire (MAX_LIGNE - 1) s.stdin).1
      (s.ligne.drop ((fgets_lire (MAX_LIGNE - 1) s.stdin).1.length + 1))
    have hk' : k < strlen ((fgets_lire (MAX_LIGNE - 1) s.stdin).1 ++
        NUL :: s.ligne.drop ((fgets_lire (MAX_LIGNE - 1) s.stdin).1.length + 1)) - 1 := hk
    show car ((fgets_lire (MAX_LIGNE - 1) s.stdin).1 ++ _) k ≠ NL
    rw [car_append_left _ _ _ (by omega)]
    exact fgets_lire_nl _ _ _ (by omega)

/-- The loop of `main` started with an empty loop stack ends, when it ends
normally, with an empty loop stack. -/
theorem main_boucle_pile (n : Nat) (k : Nat) : ∀ (t t2 : Etat), t.headstack = -1 →
    main_boucle n k t = some (.retour t2) → t2.headstack = -1 := by
  induction k with
  | zero => intro t t2 _ h; exact absurd h (by simp [main_boucle])
  | succ k ih =>
    intro t t2 ht h
    unfold main_boucle at h
    cases hf : fgets { t with stdout := t.stdout ++ [.attente t.curseur (t.matrice t.curseur)] } with
    | none =>
      rw [hf] at h
      injection h with h
      injection h with h
      subst h
      exact ht
    | some t1 =>
      rw [hf] at h
      obtain ⟨hv, hh⟩ := fgets_ligneValide _ _ hf
      simp only at h
      cases hy : yyparse n { t1 with indexligne := 0 } with
      | none => rw [hy] at h; exact absurd h (by simp)
      | some r =>
        rw [hy] at h
        cases r with
        | retour t3 =>
          simp only at h
          have h3 := pileValide_yyparse n { t1 with indexligne := 0 } t3 hv
            (pileValide_debut _ rfl (by show t1.headstack = -1; rw [hh]; exact ht)) hy
          exact ih t3 t2 h3 h
        | fatal e t3 => simp at h
        | bloque t3 => simp at h

/-- C16: when `yyparse`, run on a line as `fgets` stores it, from its start
and with an empty loop stack, returns (the end of the line is reached, no
call of `erreur`), the loop stack is empty again.  Hence in `main`, started
with an empty loop stack, every line is run from an empty loop stack, and a
run of `main` that ends normally ends with an empty loop stack. -/
theorem pile_vide_au_retour (s : Etat) (hv : ligneValide s.ligne) (hi : s.indexligne = 0)
    (hvide : s.headstack = -1) (n : Nat) (s1 : Etat) (h : yyparse n s = some (.retour s1)) :
    s1.headstack = -1 ∧
    (∀ t t1 : Etat, fgets t = some t1 → ligneValide t1.ligne ∧ t1.headstack = t.headstack) ∧
    (∀ (m k : Nat) (entree : List Nat) (t2 : Etat),
      main m k entree = some (.retour t2) → t2.headstack = -1) :=
  ⟨pileValide_yyparse n s s1 hv (pileValide_debut s hi hvide) h,
   fun t t1 hf => fgets_ligneValide t t1 hf,
   fun m k _ t2 hm => main_boucle_pile m k _ t2 rfl hm⟩

/-- C16, on the line `++[>+[-]<-]` run from the initial state. -/
theorem pile_vide_au_retour_witness :
    ligneValide (codes "++[>+[-]<-]\n") ∧
    ∃ s1, yyparse 40 (initial (codes "++[>+[-]<-]\n") []) = some (.retour s1) ∧
      s1.headstack = -1 := by
  have h : ∃ s1, yyparse 40 (initial (codes "++[>+[-]<-]\n") []) = some (.retour s1) :=
    ⟨_, rfl⟩
  obtain ⟨s1, h1⟩ := h
  exact ⟨by decide, s1, h1,
    (pile_vide_au_retour (initial (codes "++[>+[-]<-]\n") []) (by decide) rfl rfl 40 s1 h1).1⟩

/-! ## No read past the NUL -/

theorem strlen_drop (l : List Nat) : ∀ a, a ≤ strlen l → strlen (l.drop a) + a = strlen l := by
  induction l with
  | nil => intro a h; simp [strlen] at h ⊢; exact h
  | cons c l ih =>
    intro a h
    cases a with
    | zero => simp
    | succ a =>
      have hs : strlen (c :: l) = if c = NUL then 0 else strlen l + 1 := rfl
      rw [hs] at h ⊢
      by_cases hc : c = NUL
      · rw [if_pos hc] at h; omega
      · rw [if_neg hc] at h ⊢
        rw [List.drop_succ_cons]
        have := ih a (by omega)
        omega

/-- The loop of `find_lbark` reads no further than the first NUL. -/
theorem find_lbark_lu_boucle_le (cs : List Nat) : ∀ (a : Nat) (d : Int),
    find_lbark_lu_boucle cs a d ≤ a + strlen cs := by
  induction cs with
  | nil => intro a d; simp [find_lbark_lu_boucle]
  | cons c cs ih =>
    intro a d
    have hs : strlen (c :: cs) = if c = NUL then 0 else strlen cs + 1 := rfl
    rw [hs]
    unfold find_lbark_lu_boucle
    by_cases hc : c = NUL
    · rw [if_pos hc, if_pos hc]; omega
    · rw [if_neg hc, if_neg hc]
      simp only
      split_ifs <;> first | omega | exact le_trans (ih (a + 1) _) (by omega)

theorem find_lbark_lu_le (s : Etat) (h : s.indexligne ≤ strlen s.ligne) :
    find_lbark_lu s ≤ strlen s.ligne := by
  unfold find_lbark_lu
  have h1 := find_lbark_lu_boucle_le (s.ligne.drop s.indexligne) s.indexligne 1
  have h2 := strlen_drop s.ligne s.indexligne h
  omega

theorem tour_lu_eq (s t : Etat) (tok : Nat) (h : yylex s = (tok, t)) :
    tour_lu s = if tok = LBRA then max (yylex_lu s) (find_lbark_lu t) else yylex_lu s := by
  unfold tour_lu
  rw [h]

/-- One turn reads no further than the NUL, and when it ends by `break` the
scan position and the frames in use still are positions of the text. -/
theorem positionsValides_tour (s : Etat) (hp : positionsValides s) :
    tour_lu s ≤ strlen s.ligne ∧
    ∀ s1, yyparse_tour s = .suite s1 → s1.ligne = s.ligne ∧ positionsValides s1 := by
  obtain ⟨hi, hF⟩ := hp
  rcases yylex_cas s with ⟨hnl, hlex⟩ | ⟨hnl, j, hij, hin, htrue, hlex⟩
  · constructor
    · rw [tour_lu_eq s s 0 hlex, if_neg (show ¬ (0 : Nat) = LBRA by decide)]
      unfold yylex_lu
      rw [if_pos hnl]
      exact hi
    · intro s1 h
      rw [tour_nl s hnl] at h
      exact absurd h (by simp)
  have hjl : j ≤ strlen s.ligne := by
    by_contra hcon
    have := hin (strlen s.ligne) hi (by omega)
    rw [car_strlen] at this
    exact absurd this (by decide)
  have hlu : yylex_lu s = j := by
    have e := congrArg (fun p : Nat × Etat => p.2.indexligne) hlex
    simp only [yylex, if_neg hnl] at e
    unfold yylex_lu
    rw [if_neg hnl]
    omega
  have ht : yyparse_tour s =
      yyparse_switch (car s.ligne j) { s with indexligne := j + 1 } := by
    unfold yyparse_tour; rw [hlex]
  rcases strchr_ops_true _ htrue with hop | hnul
  swap
  · constructor
    · rw [tour_lu_eq s _ _ hlex, hlu, hnul, if_neg (show ¬ NUL = LBRA by decide)]
      exact hjl
    · intro s1 h
      rw [ht, hnul] at h
      have e : yyparse_switch NUL { s with indexligne := j + 1 } =
          .retour { s with indexligne := j + 1 } := rfl
      rw [e] at h
      exact absurd h (by simp)
  have hjs : j < strlen s.ligne := by
    have hne : car s.ligne j ≠ NUL := by
      intro e; rw [e] at hop; exact absurd hop (by decide)
    by_contra hcon
    have : j = strlen s.ligne := by omega
    rw [this] at hne
    exact hne (car_strlen _)
  constructor
  · rw [tour_lu_eq s _ _ hlex, hlu]
    split_ifs
    · exact max_le hjl (find_lbark_lu_le { s with indexligne := j + 1 }
        (by show j + 1 ≤ strlen s.ligne; omega))
    · exact hjl
  · intro s1 h
    rw [ht] at h
    rcases mem_ops _ hop with hsimple | hlb | hrb
    · obtain ⟨e1, e2, e3, e4⟩ := switch_simple _ _ _ hsimple h
      have e1 : s1.ligne = s.ligne := e1
      have e2 : s1.indexligne = j + 1 := e2
      have e3 : s1.stack = s.stack := e3
      have e4 : s1.headstack = s.headstack := e4
      refine ⟨e1, ?_⟩
      unfold positionsValides
      rw [e1, e2, e3, e4]
      exact ⟨by omega, hF⟩
    · rw [hlb, switch_lbra] at h
      by_cases h0 : find_lbark { s with indexligne := j + 1 } = 0
      · rw [if_pos h0] at h; exact absurd h (by simp)
      rw [if_neg h0] at h
      have hferme : ferme s.ligne j (find_lbark { s with indexligne := j + 1 }) :=
        ferme_of_find_lbark { s with indexligne := j + 1 } j rfl h0
      obtain ⟨_, _, hq3⟩ := ferme_niveau _ _ _ hferme hlb
      have hqs := lt_strlen_of_lt _ j _ hjs hq3
      split_ifs at h
      · injection h with h
        subst h
        refine ⟨rfl, ?_⟩
        show find_lbark _ + 1 ≤ strlen s.ligne ∧ _
        exact ⟨by omega, hF⟩
      · injection h with h
        subst h
        refine ⟨rfl, ?_⟩
        show j + 1 ≤ strlen s.ligne ∧ _
        exact ⟨by omega, hF⟩
      · injection h with h
        subst h
        refine ⟨rfl, ?_⟩
        show j + 1 ≤ strlen s.ligne ∧
          ∀ k : Int, 0 ≤ k → k ≤ s.headstack + 1 →
            (ecrire s.stack (s.headstack + 1) ⟨j + 1 - 1, find_lbark _⟩ k).debut <
              strlen s.ligne
        refine ⟨by omega, ?_⟩
        intro k hk0 hk
        by_cases hkh : k = s.headstack + 1
        · rw [hkh, ecrire_meme]
          show j + 1 - 1 < _
          omega
        · rw [ecrire_autre _ _ _ _ hkh]
          exact hF k hk0 (by omega)
    · rw [hrb, switch_rbra] at h
      split_ifs at h with hneg hz
      · injection h with h
        subst h
        refine ⟨rfl, ?_⟩
        show (s.stack s.headstack).debut ≤ strlen s.ligne ∧ _
        have hneg' : ¬ s.headstack < 0 := hneg
        have := hF s.headstack (by omega) (le_refl _)
        exact ⟨by omega, hF⟩
      · injection h with h
        subst h
        refine ⟨rfl, ?_⟩
        show j + 1 ≤ strlen s.ligne ∧
          ∀ k : Int, 0 ≤ k → k ≤ s.headstack - 1 → (s.stack k).debut < strlen s.ligne
        exact ⟨by omega, fun k hk0 hk => hF k hk0 (by omega)⟩

/-- No turn of a run reads further than the NUL. -/
theorem yyparse_lu_le (n : Nat) : ∀ s : Etat, positionsValides s →
    yyparse_lu n s ≤ strlen s.ligne := by
  induction n with
  | zero => intro s _; exact Nat.zero_le _
  | succ n ih =>
    intro s hp
    obtain ⟨h1, h2⟩ := positionsValides_tour s hp
    unfold yyparse_lu
    cases ht : yyparse_tour s with
    | suite s1 =>
      obtain ⟨hl, hp1⟩ := h2 s1 ht
      have := ih s1 hp1
      rw [hl] at this
      exact max_le h1 this
    | retour s1 => exact h1
    | fatal e s1 => exact h1
    | bloque s1 => exact h1

/-- C19: during the run of `yyparse` on a line, from its start and with an
empty loop stack, however many turns it takes, no read of `ligne` (by the
skip loop and the other reads of `yylex`, by the scan of `find_lbark`, also
after a jump past a closer or back to a `[`) is at an index greater than the
index of the NUL that ends the line; and when the text of the line holds no
operator, the first turn is a `return`, with nothing changed but the scan
position. -/
theorem lectures_bornees (s : Etat) (hi : s.indexligne = 0) (hvide : s.headstack = -1) :
    (∀ n, yyparse_lu n s ≤ strlen s.ligne) ∧
    ((∀ k, k < strlen s.ligne → car s.ligne k ∉ ops) →
      ∃ s1, yyparse_tour s = .retour s1 ∧ yyparse 1 s = some (.retour s1) ∧
        s1 = { s with indexligne := s1.indexligne }) := by
  have hp : positionsValides s :=
    ⟨by rw [hi]; exact Nat.zero_le _, fun k h1 h2 => by rw [hvide] at h2; omega⟩
  refine ⟨fun n => yyparse_lu_le n s hp, ?_⟩
  intro hno
  have hret : ∃ s1, yyparse_tour s = .retour s1 ∧
      s1 = { s with indexligne := s1.indexligne } := by
    rcases yylex_cas s with ⟨hnl, _⟩ | ⟨hnl, j, hij, hin, htrue, hlex⟩
    · exact ⟨s, tour_nl s hnl, rfl⟩
    · have hjl : j ≤ strlen s.ligne := by
        by_contra hcon
        have := hin (strlen s.ligne) (by omega) (by omega)
        rw [car_strlen] at this
        exact absurd this (by decide)
      have hnul : car s.ligne j = NUL := by
        rcases strchr_ops_true _ htrue with hop | hnul
        · by_cases hjs : j < strlen s.ligne
          · exact absurd hop (hno j hjs)
          · rw [show j = strlen s.ligne by omega]; exact car_strlen _
        · exact hnul
      refine ⟨{ s with indexligne := j + 1 }, ?_, rfl⟩
      unfold yyparse_tour
      rw [hlex, hnul]
      rfl
  obtain ⟨s1, h1, h2⟩ := hret
  exact ⟨s1, h1, by simp only [yyparse, h1], h2⟩

/-- C19, on the line `+[>+<-]` and on the line `abc`, with the NUL at index 8
and 4, run from the initial state. -/
theorem lectures_bornees_witness :
    strlen (codes "+[>+<-]\n" ++ [NUL]) = 8 ∧
    yyparse_lu 20 (initial (codes "+[>+<-]\n" ++ [NUL]) []) ≤ 8 ∧
    ∃ s1, yyparse 1 (initial (codes "abc\n" ++ [NUL]) []) = some (.retour s1) ∧
      s1.matrice 0 = 0 ∧ s1.stdout = [] := by
  have h := lectures_bornees (initial (codes "+[>+<-]\n" ++ [NUL]) []) rfl rfl
  have h2 := lectures_bornees (initial (codes "abc\n" ++ [NUL]) []) rfl rfl
  obtain ⟨s1, _, g1, g2⟩ := h2.2 (by decide)
  exact ⟨by decide, le_trans (h.1 20) (by decide), s1, g1, by rw [g2]; rfl, by rw [g2]; rfl⟩

/-! ## Inert characters -/

theorem phi_zero (t : List Nat) : phi t 0 = 0 := by
  simp [phi, sansInertes]

theorem phi_cons (c : Nat) (t : List Nat) (x : Nat) :
    phi (c :: t) (x + 1) = (if c ∈ ops then 1 else 0) + phi t x := by
  unfold phi sansInertes
  rw [List.take_succ_cons, List.filter_cons]
  by_cases h : c ∈ ops
  · simp [h]; omega
  · simp [h]

/-- The operator count after a character is the count before it, plus one
when the character is an operator. -/
theorem phi_succ (t : List Nat) :
    ∀ x, phi t (x + 1) = phi t x + (if car t x ∈ ops then 1 else 0) := by
  induction t with
  | nil =>
    intro x
    have : ¬ NUL ∈ ops := by decide
    simp [phi, sansInertes, car_nil, this]
  | cons c t ih =>
    intro x
    cases x with
    | zero => rw [phi_cons, phi_zero, phi_zero, car_cons_zero]; omega
    | succ x => rw [phi_cons, phi_cons, car_cons_succ, ih x]; omega

theorem phi_length (t : List Nat) : phi t t.length = (sansInertes t).length := by
  unfold phi
  rw [List.take_length]

theorem phi_mono (t : List Nat) (x : Nat) : ∀ y, x ≤ y → phi t x ≤ phi t y := by
  intro y
  induction y with
  | zero => intro h; rw [show x = 0 by omega]
  | succ y ih =>
    intro h
    by_cases hxy : x = y + 1
    · rw [hxy]
    · have := ih (by omega)
      rw [phi_succ]
      omega

/-- Characters that are not operators do not change the operator count. -/
theorem phi_inertes (t : List Nat) (i : Nat) : ∀ j, i ≤ j →
    (∀ x, i ≤ x → x < j → car t x ∉ ops) → phi t j = phi t i := by
  intro j
  induction j with
  | zero => intro h _; rw [show i = 0 by omega]
  | succ j ih =>
    intro h hin
    by_cases hij : i = j + 1
    · rw [hij]
    · rw [phi_succ, ih (by omega) (fun x h1 h2 => hin x h1 (by omega)),
        if_neg (hin j (by omega) (by omega))]
      rfl

theorem phi_lt (t : List Nat) (x y : Nat) (hxy : x < y) (hx : car t x ∈ ops) :
    phi t x < phi t y := by
  have h1 := phi_mono t (x + 1) y hxy
  rw [phi_succ, if_pos hx] at h1
  omega

/-- Two positions that hold operators and have the same operator count are
the same position. -/
theorem phi_inj (t : List Nat) (x y : Nat) (hx : car t x ∈ ops) (hy : car t y ∈ ops)
    (h : phi t x = phi t y) : x = y := by
  by_contra hne
  rcases Nat.lt_or_gt_of_ne hne with hlt | hgt
  · have := phi_lt t x y hlt hx; omega
  · have := phi_lt t y x hgt hy; omega

/-- An operator of the text is found, in the text without inert characters,
at the position given by its operator count. -/
theorem car_sansInertes (t : List Nat) : ∀ x, car t x ∈ ops →
    car (sansInertes t) (phi t x) = car t x := by
  induction t with
  | nil => intro x h; rw [car_nil] at h; exact absurd h (by decide)
  | cons c t ih =>
    intro x h
    cases x with
    | zero =>
      rw [car_cons_zero] at h
      rw [phi_zero, car_cons_zero]
      unfold sansInertes
      rw [List.filter_cons]
      simp [h, car_cons_zero]
    | succ x =>
      rw [car_cons_succ] at h
      rw [phi_cons, car_cons_succ]
      have e := ih x h
      unfold sansInertes at e ⊢
      rw [List.filter_cons]
      by_cases hc : c ∈ ops
      · simp only [hc, decide_True, if_true]
        rw [show 1 + phi t x = phi t x + 1 by omega, car_cons_succ]
        exact e
      · simp only [hc, decide_False, if_false, Bool.false_eq_true]
        rw [Nat.zero_add]
        exact e

/-- What is left of the text without inert characters after the operator
count of `x` is what is left of the text after `x`, without its inert
characters. -/
theorem drop_sansInertes (t : List Nat) : ∀ x,
    (sansInertes t).drop (phi t x) = sansInertes (t.drop x) := by
  induction t with
  | nil => intro x; simp [sansInertes, phi]
  | cons c t ih =>
    intro x
    cases x with
    | zero => rw [phi_zero]; rfl
    | succ x =>
      rw [phi_cons, List.drop_succ_cons, ← ih x]
      unfold sansInertes
      rw [List.filter_cons]
      by_cases hc : c ∈ ops
      · simp only [hc, decide_True, if_true]
        rw [show 1 + phi t x = phi t x + 1 by omega, List.drop_succ_cons]
      · simp only [hc, decide_False, if_false, Bool.false_eq_true]
        rw [Nat.zero_add]

theorem car_append_right (l r : List Nat) (k : Nat) : car (l ++ r) (l.length + k) = car r k := by
  unfold car
  rw [List.getD_eq_getElem?_getD, List.getD_eq_getElem?_getD,
    List.getElem?_append_right (by omega)]
  simp

theorem car_mem (l : List Nat) (k : Nat) (h : k < l.length) : car l k ∈ l := by
  unfold car
  rw [List.getD_eq_getElem _ _ h]
  exact List.getElem_mem _

theorem phi_add (t : List Nat) (a k : Nat) : phi t (a + k) = phi t a + phi (t.drop a) k := by
  unfold phi sansInertes
  rw [List.take_add, List.filter_append, List.length_append]

theorem sansInertes_cons_op (c : Nat) (u : List Nat) (h : c ∈ ops) :
    sansInertes (c :: u) = c :: sansInertes u := by
  unfold sansInertes
  rw [List.filter_cons]
  simp [h]

theorem sansInertes_cons_inerte (c : Nat) (u : List Nat) (h : c ∉ ops) :
    sansInertes (c :: u) = sansInertes u := by
  unfold sansInertes
  rw [List.filter_cons]
  simp [h]

/-- The loop of `find_lbark` goes the same way on a text and on the text
without its inert characters: no closer in both, or the same closer. -/
theorem find_lbark_boucle_simule (fin fin' : List Nat) (u : List Nat) :
    NUL ∉ u → ∀ (a a' : Nat) (d : Int),
    (find_lbark_boucle (u ++ NL :: NUL :: fin) a d = 0 ∧
      find_lbark_boucle (sansInertes u ++ NL :: NUL :: fin') a' d = 0) ∨
    (∃ k, k < u.length ∧ car u k = RBRA ∧
      find_lbark_boucle (u ++ NL :: NUL :: fin) a d = a + k ∧
      find_lbark_boucle (sansInertes u ++ NL :: NUL :: fin') a' d = a' + phi u k) := by
  induction u with
  | nil => intro _ a a' d; left; exact ⟨rfl, rfl⟩
  | cons c u ih =>
    intro hnul a a' d
    have hc : ¬ c = NUL := fun h => hnul (by simp [h])
    have hnul2 : NUL ∉ u := fun h => hnul (by simp [h])
    have e1 : ¬ LBRA = NUL := by decide
    have e2 : ¬ LBRA = RBRA := by decide
    have e3 : ¬ RBRA = NUL := by decide
    have e4 : ¬ RBRA = LBRA := by decide
    by_cases hop : c ∈ ops
    · -- an operator: kept, both loops make the same step
      have step : ∀ d2 : Int,
          find_lbark_boucle (c :: (u ++ NL :: NUL :: fin)) a d =
            find_lbark_boucle (u ++ NL :: NUL :: fin) (a + 1) d2 →
          find_lbark_boucle (c :: (sansInertes u ++ NL :: NUL :: fin')) a' d =
            find_lbark_boucle (sansInertes u ++ NL :: NUL :: fin') (a' + 1) d2 →
          (find_lbark_boucle (c :: u ++ NL :: NUL :: fin) a d = 0 ∧
            find_lbark_boucle (sansInertes (c :: u) ++ NL :: NUL :: fin') a' d = 0) ∨
          (∃ k, k < (c :: u).length ∧ car (c :: u) k = RBRA ∧
            find_lbark_boucle (c :: u ++ NL :: NUL :: fin) a d = a + k ∧
            find_lbark_boucle (sansInertes (c :: u) ++ NL :: NUL :: fin') a' d =
              a' + phi (c :: u) k) := by
        intro d2 h1 h2
        rw [sansInertes_cons_op c u hop, List.cons_append, List.cons_append, h1, h2]
        rcases ih hnul2 (a + 1) (a' + 1) d2 with ⟨g1, g2⟩ | ⟨k, g1, g2, g3, g4⟩
        · left; exact ⟨g1, g2⟩
        · right
          refine ⟨k + 1, by simp only [List.length_cons]; omega, by rw [car_cons_succ]; exact g2,
            by rw [g3]; omega, ?_⟩
          rw [g4, phi_cons, if_pos hop]; omega
      by_cases a1 : c = LBRA
      · exact step (d + 1) (by simp [find_lbark_boucle, a1, e1, e2])
          (by simp [find_lbark_boucle, a1, e1, e2])
      · by_cases b1 : c = RBRA
        · by_cases hz : d - 1 = 0
          · right
            refine ⟨0, by simp, by rw [car_cons_zero]; exact b1, ?_, ?_⟩
            · simp [find_lbark_boucle, b1, e3, e4, hz]
            · rw [sansInertes_cons_op c u hop, phi_zero]
              simp [find_lbark_boucle, b1, e3, e4, hz]
          · exact step (d - 1) (by simp [find_lbark_boucle, b1, e3, e4, hz])
              (by simp [find_lbark_boucle, b1, e3, e4, hz])
        · exact step d (by simp [find_lbark_boucle, hc, a1, b1])
            (by simp [find_lbark_boucle, hc, a1, b1])
    · -- an inert character: skipped by the loop on one side, absent on the other
      have a1 : ¬ c = LBRA := by intro e; rw [e] at hop; exact hop (by decide)
      have b1 : ¬ c = RBRA := by intro e; rw [e] at hop; exact hop (by decide)
      have h1 : find_lbark_boucle (c :: u ++ NL :: NUL :: fin) a d =
          find_lbark_boucle (u ++ NL :: NUL :: fin) (a + 1) d := by
        simp [find_lbark_boucle, hc, a1, b1]
      rw [sansInertes_cons_inerte c u hop, h1]
      rcases ih hnul2 (a + 1) a' d with ⟨g1, g2⟩ | ⟨k, g1, g2, g3, g4⟩
      · left; exact ⟨g1, g2⟩
      · right
        refine ⟨k + 1, by simp only [List.length_cons]; omega, by rw [car_cons_succ]; exact g2,
          by rw [g3]; omega, ?_⟩
        rw [g4, phi_cons, if_neg hop]; omega

/-- The six operators that are not brackets do the same thing in two states
with the same tape, cursor and streams. -/
theorem switch_simple_simule (tok : Nat) (t t' : Etat)
    (htok : tok = PLUS ∨ tok = MOINS ∨ tok = DROITE ∨ tok = GAUCHE ∨ tok = VIRGULE ∨ tok = POINT)
    (h : memeObs t t') :
    (∃ u v, yyparse_switch tok t = .suite u ∧ yyparse_switch tok t' = .suite v ∧ memeObs u v) ∨
    (∃ u v, yyparse_switch tok t = .bloque u ∧ yyparse_switch tok t' = .bloque v ∧
      memeObs u v) := by
  obtain ⟨h1, h2, h3, h4, h5, h6⟩ := h
  have fin : ∀ u v : Etat, u.matrice = v.matrice → u.curseur = v.curseur → u.stdin = v.stdin →
      u.stdout = v.stdout → u.stderr = v.stderr → u.headstack = v.headstack → memeObs u v :=
    fun u v a b c d e f => ⟨a, b, c, d, e, f⟩
  rcases htok with rfl | rfl | rfl | rfl | rfl | rfl
  · rw [switch_plus, switch_plus, ← h1, ← h2, ← h5]
    left
    split_ifs
    · exact ⟨_, _, rfl, rfl, fin _ _ rfl rfl h3 h4 rfl h6⟩
    · exact ⟨_, _, rfl, rfl, fin _ _ rfl rfl h3 h4 rfl h6⟩
  · rw [switch_moins, switch_moins, ← h1, ← h2, ← h5]
    left
    split_ifs
    · exact ⟨_, _, rfl, rfl, fin _ _ rfl rfl h3 h4 rfl h6⟩
    · exact ⟨_, _, rfl, rfl, fin _ _ rfl rfl h3 h4 rfl h6⟩
  · rw [switch_droite, switch_droite, ← h2, ← h5]
    left
    split_ifs
    · exact ⟨_, _, rfl, rfl, fin _ _ h1 rfl h3 h4 rfl h6⟩
    · exact ⟨_, _, rfl, rfl, fin _ _ h1 rfl h3 h4 rfl h6⟩
  · rw [switch_gauche, switch_gauche, ← h2, ← h5]
    left
    split_ifs
    · exact ⟨_, _, rfl, rfl, fin _ _ h1 rfl h3 h4 rfl h6⟩
    · exact ⟨_, _, rfl, rfl, fin _ _ h1 rfl h3 h4 rfl h6⟩
  · rw [switch_virgule, switch_virgule, ← h1, ← h2, ← h3, ← h4]
    cases vider (if toChar (getchar t.stdin).1 = EOF then ungetc NL (getchar t.stdin).2
        else (getchar t.stdin).2) with
    | none => right; exact ⟨_, _, rfl, rfl, fin _ _ rfl rfl rfl rfl h5 h6⟩
    | some r => left; exact ⟨_, _, rfl, rfl, fin _ _ rfl rfl rfl rfl h5 h6⟩
  · rw [switch_point, switch_point, ← h1, ← h2, ← h4]
    left
    exact ⟨_, _, rfl, rfl, fin _ _ rfl rfl h3 rfl h5 h6⟩

/-- A turn that ends by `break` leaves the line buffer as it is. -/
theorem tour_ligne (s u : Etat) (h : yyparse_tour s = .suite u) : u.ligne = s.ligne := by
  rcases yylex_cas s with ⟨hnl, hlex⟩ | ⟨hnl, j, hij, hin, htrue, hlex⟩
  · rw [tour_nl s hnl] at h
    exact absurd h (by simp)
  have ht : yyparse_tour s =
      yyparse_switch (car s.ligne j) { s with indexligne := j + 1 } := by
    unfold yyparse_tour; rw [hlex]
  rw [ht] at h
  rcases strchr_ops_true _ htrue with hop | hnul
  · rcases mem_ops _ hop with hsimple | hlb | hrb
    · exact (switch_simple _ _ _ hsimple h).1
    · rw [hlb, switch_lbra] at h
      split_ifs at h <;> (injection h with h; subst h; rfl)
    · rw [hrb, switch_rbra] at h
      split_ifs at h <;> (injection h with h; subst h; rfl)
  · rw [hnul] at h
    have e : yyparse_switch NUL { s with indexligne := j + 1 } =
        .retour { s with indexligne := j + 1 } := rfl
    rw [e] at h
    exact absurd h (by simp)

/-- Positions of the text of a line in its buffer. -/
theorem car_texte (texte fin : List Nat) (x : Nat) (h : x < texte.length) :
    car (texte ++ fin) x = car texte x := car_append_left _ _ _ h

theorem car_texte_nl (texte fin : List Nat) : car (texte ++ NL :: fin) texte.length = NL := by
  have := car_append_right texte (NL :: fin) 0
  rw [Nat.add_zero, car_cons_zero] at this
  exact this

theorem car_texte_nul (texte fin : List Nat) :
    car (texte ++ NL :: NUL :: fin) (texte.length + 1) = NUL := by
  rw [car_append_right, car_cons_succ, car_cons_zero]

theorem lt_of_car_op (t : List Nat) (x : Nat) (h : car t x ∈ ops) : x < t.length := by
  by_contra hcon
  have : car t x = NUL := by
    unfold car
    rw [List.getD_eq_default _ _ (by omega)]
  rw [this] at h
  exact absurd h (by decide)

theorem phi_lt_length (t : List Nat) (x : Nat) (h : car t x ∈ ops) :
    phi t x < (sansInertes t).length := by
  have hx := lt_of_car_op t x h
  have h1 := phi_lt t x t.length hx h
  rw [phi_length] at h1
  exact h1

/-- The closer found by `find_lbark` on a line and on the line without its
inert characters: none in both, or the same one. -/
theorem find_lbark_simule (texte fin fin' : List Nat) (hnul : NUL ∉ texte) (t t' : Etat)
    (hl : t.ligne = texte ++ NL :: NUL :: fin)
    (hl' : t'.ligne = sansInertes texte ++ NL :: NUL :: fin') (j : Nat)
    (hop : car texte j ∈ ops) (hi : t.indexligne = j + 1)
    (hi' : t'.indexligne = phi texte j + 1) :
    (find_lbark t = 0 ∧ find_lbark t' = 0) ∨
    (∃ q, q < texte.length ∧ car texte q = RBRA ∧ find_lbark t = q ∧ q ≠ 0 ∧
      find_lbark t' = phi texte q ∧ phi texte q ≠ 0) := by
  have hj := lt_of_car_op texte j hop
  have hp1 : phi texte (j + 1) = phi texte j + 1 := by rw [phi_succ, if_pos hop]
  have hd : t.ligne.drop t.indexligne = texte.drop (j + 1) ++ NL :: NUL :: fin := by
    rw [hl, hi, List.drop_append_of_le_length (by omega)]
  have hd' : t'.ligne.drop t'.indexligne =
      sansInertes (texte.drop (j + 1)) ++ NL :: NUL :: fin' := by
    rw [hl', hi', ← hp1, List.drop_append_of_le_length
      (by rw [← phi_length]; exact phi_mono _ _ _ (by omega)), drop_sansInertes]
  have hnul2 : NUL ∉ texte.drop (j + 1) := fun h => hnul (List.mem_of_mem_drop h)
  unfold find_lbark
  rw [hd, hd', hi, hi']
  rcases find_lbark_boucle_simule fin fin' (texte.drop (j + 1)) hnul2 (j + 1)
    (phi texte j + 1) 1 with ⟨g1, g2⟩ | ⟨k, g1, g2, g3, g4⟩
  · left; exact ⟨g1, g2⟩
  · right
    rw [List.length_drop] at g1
    have hcar : car (texte.drop (j + 1)) k = car texte (j + 1 + k) := by
      have := getD_drop texte (j + 1) k
      unfold car at this ⊢
      exact this
    refine ⟨j + 1 + k, by omega, by rw [← hcar]; exact g2, g3, by omega, ?_, ?_⟩
    · rw [g4, phi_add, hp1]
    · rw [phi_add, hp1]; omega

/-- The token read by `yylex` on a line and on the line without its inert
characters, from corresponding scan positions: the same one; an operator is
read at a position of the text and at its operator count. -/
theorem yylex_simule (texte fin fin' : List Nat) (hnul : NUL ∉ texte) (hnl : NL ∉ texte)
    (s s' : Etat) (hl : s.ligne = texte ++ NL :: NUL :: fin)
    (hl' : s'.ligne = sansInertes texte ++ NL :: NUL :: fin')
    (hi : s.indexligne ≤ texte.length) (hi' : s'.indexligne = phi texte s.indexligne) :
    ((yylex s).1 = 0 ∧ (yylex s').1 = 0) ∨
    (∃ j, j < texte.length ∧ car texte j ∈ ops ∧
      yylex s = (car texte j, { s with indexligne := j + 1 }) ∧
      yylex s' = (car texte j, { s' with indexligne := phi texte j + 1 })) := by
  have hfin : (∀ x, s.indexligne ≤ x → x < texte.length → car texte x ∉ ops) →
      yylex s' = (0, s') := by
    intro hin
    apply yylex_nl
    rw [hl', hi', ← phi_inertes texte s.indexligne texte.length hi hin, phi_length]
    exact car_texte_nl _ _
  have htexte : ∀ x, x < texte.length → car s.ligne x = car texte x := by
    intro x hx; rw [hl]; exact car_texte _ _ _ hx
  rcases yylex_cas s with ⟨hcnl, hlex⟩ | ⟨hcnl, j, hij, hin, htrue, hlex⟩
  · left
    have hie : s.indexligne = texte.length := by
      by_contra hne
      have hlt : s.indexligne < texte.length := by omega
      rw [htexte _ hlt] at hcnl
      exact hnl (hcnl ▸ car_mem texte _ hlt)
    rw [hlex, hfin (fun x h1 h2 => by omega)]
    exact ⟨rfl, rfl⟩
  · have hjle : j ≤ texte.length + 1 := by
      by_contra hcon
      have := hin (texte.length + 1) (by omega) (by omega)
      rw [hl, car_texte_nul] at this
      exact absurd this (by decide)
    have hinertes : ∀ x, s.indexligne ≤ x → x < j → x < texte.length → car texte x ∉ ops := by
      intro x h1 h2 h3
      have := (strchr_ops_false _ (hin x h1 h2)).1
      rw [htexte x h3] at this
      exact this
    rcases strchr_ops_true _ htrue with hop | hnul0
    · right
      have hjl : j < texte.length := by
        by_contra hcon
        rcases Nat.lt_or_ge texte.length j with h1 | h1
        · have : j = texte.length + 1 := by omega
          rw [this, hl, car_texte_nul] at hop
          exact absurd hop (by decide)
        · have : j = texte.length := by omega
          rw [this, hl, car_texte_nl] at hop
          exact absurd hop (by decide)
      have hcj := htexte j hjl
      rw [hcj] at hop
      have hphi : phi texte j = phi texte s.indexligne :=
        phi_inertes texte _ j hij (fun x h1 h2 => hinertes x h1 h2 (by omega))
      have hc' : car s'.ligne s'.indexligne = car texte j := by
        rw [hl', hi', ← hphi, car_texte _ _ _ (phi_lt_length texte j hop),
          car_sansInertes texte j hop]
      have hlex' := yylex_op s' (by rw [hc']; exact hop)
      rw [hc', hi', ← hphi] at hlex'
      exact ⟨j, hjl, hop, by rw [hlex, hcj], hlex'⟩
    · left
      have hje : j = texte.length + 1 := by
        by_contra hne
        rcases Nat.lt_or_ge j texte.length with h1 | h1
        · rw [htexte j h1] at hnul0
          exact hnul (hnul0 ▸ car_mem texte _ h1)
        · have : j = texte.length := by omega
          rw [this, hl, car_texte_nl] at hnul0
          exact absurd hnul0 (by decide)
      rw [hlex, hnul0, hfin (fun x h1 h2 => hinertes x h1 (by omega) h2)]
      exact ⟨rfl, rfl⟩

theorem memeObs_yylex (s s' : Etat) (h : memeObs s s') : memeObs (yylex s).2 (yylex s').2 := by
  obtain ⟨h1, h2, h3, h4, h5, h6⟩ := h
  exact ⟨by rw [yylex_matrice, yylex_matrice, h1], by rw [yylex_curseur, yylex_curseur, h2],
    by rw [yylex_stdin, yylex_stdin, h3], by rw [yylex_stdout, yylex_stdout, h4],
    by rw [yylex_stderr, yylex_stderr, h5], by rw [yylex_headstack, yylex_headstack, h6]⟩

/-- The `switch` on a `[` in a state given by its scan position. -/
theorem switch_lbra_idx (s : Etat) (x : Nat) :
    yyparse_switch LBRA { s with indexligne := x } =
      if find_lbark { s with indexligne := x } = 0 then
        .fatal (.crochetFermantManquant (x - 1)) { s with indexligne := x }
      else if s.matrice s.curseur = 0 then
        .suite { s with indexligne := find_lbark { s with indexligne := x } + 1 }
      else if s.headstack ≥ 0 ∧ (s.stack s.headstack).debut = x - 1 then
        .suite { s with indexligne := x }
      else if s.headstack ≥ STACK_MAX then
        .fatal (.pilePleine STACK_MAX) { s with indexligne := x }
      else
        .suite { s with indexligne := x, headstack := s.headstack + 1,
                        stack := ecrire s.stack (s.headstack + 1)
                          ⟨x - 1, find_lbark { s with indexligne := x }⟩ } := rfl

/-- The `switch` on a `]` in a state given by its scan position. -/
theorem switch_rbra_idx (s : Etat) (x : Nat) :
    yyparse_switch RBRA { s with indexligne := x } =
      if s.headstack < 0 then
        .fatal (.crochetOuvrantManquant (x - 1)) { s with indexligne := x }
      else if s.matrice s.curseur ≠ 0 then
        .suite { s with indexligne := (s.stack s.headstack).debut }
      else .suite { s with indexligne := x, headstack := s.headstack - 1 } := rfl

/-- One turn of the dispatcher on a line and one turn on the line without its
inert characters, from corresponding states, end the same way, in
corresponding states. -/
theorem tour_simule (texte fin fin' : List Nat) (hnul : NUL ∉ texte) (hnl : NL ∉ texte)
    (s s' : Etat) (hl : s.ligne = texte ++ NL :: NUL :: fin)
    (hl' : s'.ligne = sansInertes texte ++ NL :: NUL :: fin') (hsim : simule texte s s') :
    simuleIssue texte (yyparse_tour s) (yyparse_tour s') := by
  obtain ⟨hobs, hi, hi', hF⟩ := hsim
  rcases yylex_simule texte fin fin' hnul hnl s s' hl hl' hi hi' with
    ⟨h0, h0'⟩ | ⟨j, hjl, hop, hlex, hlex'⟩
  · have e : ∀ t : Etat, yyparse_switch 0 t = .retour t := fun _ => rfl
    unfold yyparse_tour
    rw [h0, h0', e, e]
    exact memeObs_yylex s s' hobs
  have ht : yyparse_tour s = yyparse_switch (car texte j) { s with indexligne := j + 1 } := by
    unfold yyparse_tour; rw [hlex]
  have ht' : yyparse_tour s' =
      yyparse_switch (car texte j) { s' with indexligne := phi texte j + 1 } := by
    unfold yyparse_tour; rw [hlex']
  rw [ht, ht']
  obtain ⟨o1, o2, o3, o4, o5, o6⟩ := hobs
  have hobs : memeObs s s' := ⟨o1, o2, o3, o4, o5, o6⟩
  have hobst : memeObs { s with indexligne := j + 1 } { s' with indexligne := phi texte j + 1 } :=
    ⟨o1, o2, o3, o4, o5, o6⟩
  have hp1 : phi texte (j + 1) = phi texte j + 1 := by rw [phi_succ, if_pos hop]
  -- how to conclude when both turns end by `break` with the stacks untouched
  have suite : ∀ (u v : Etat) (x : Nat), memeObs u v → u.indexligne = x →
      v.indexligne = phi texte x → x ≤ texte.length → u.stack = s.stack → v.stack = s'.stack →
      u.headstack ≤ s.headstack → simule texte u v := by
    intro u v x huv e1 e2 hx e3 e4 e5
    refine ⟨huv, by rw [e1]; exact hx, by rw [e2, e1], ?_⟩
    intro k hk0 hk
    rw [e3, e4]
    exact hF k hk0 (by omega)
  rcases mem_ops _ hop with hsimple | hlb | hrb
  · rcases switch_simple_simule _ _ _ hsimple hobst with
      ⟨u, v, hu, hv, huv⟩ | ⟨u, v, hu, hv, huv⟩
    · obtain ⟨_, a2, a3, a4⟩ := switch_simple _ _ _ hsimple hu
      obtain ⟨_, b2, b3, _⟩ := switch_simple _ _ _ hsimple hv
      rw [hu, hv]
      exact suite u v (j + 1) huv a2 (by rw [b2, hp1]) (by omega) a3 b3 (le_of_eq a4)
    · rw [hu, hv]
      exact huv
  · -- a loop-open
    rw [hlb, switch_lbra_idx, switch_lbra_idx]
    rw [hlb] at hop
    rcases find_lbark_simule texte fin fin' hnul { s with indexligne := j + 1 }
        { s' with indexligne := phi texte j + 1 } hl hl' j (by rw [hlb]; exact hop) rfl rfl with
      ⟨g1, g2⟩ | ⟨q, hq, hcq, g1, g2, g3, g4⟩
    · rw [if_pos g1, if_pos g2]
      exact ⟨trivial, hobst⟩
    rw [g1, g3, if_neg g2, if_neg g4]
    have hqop : car texte q ∈ ops := by rw [hcq]; decide
    have hq1 : phi texte (q + 1) = phi texte q + 1 := by rw [phi_succ, if_pos hqop]
    have hcell : s'.matrice s'.curseur = s.matrice s.curseur := by rw [← o1, ← o2]
    rw [hcell, ← o6]
    by_cases hz : s.matrice s.curseur = 0
    · rw [if_pos hz, if_pos hz]
      exact suite _ _ (q + 1) ⟨o1, o2, o3, o4, o5, rfl⟩ rfl (by show phi texte q + 1 = _; rw [hq1]) (by omega)
        rfl rfl (le_refl _)
    rw [if_neg hz, if_neg hz]
    have hre : (s.headstack ≥ 0 ∧ (s.stack s.headstack).debut = j + 1 - 1) ↔
        (s.headstack ≥ 0 ∧ (s'.stack s.headstack).debut = phi texte j + 1 - 1) := by
      rw [Nat.add_sub_cancel, Nat.add_sub_cancel]
      constructor
      · rintro ⟨a, b⟩
        exact ⟨a, by rw [(hF _ a (le_refl _)).2.2, b]⟩
      · rintro ⟨a, b⟩
        obtain ⟨_, c2, c3⟩ := hF _ a (le_refl _)
        rw [c3] at b
        exact ⟨a, phi_inj texte _ _ c2 (by rw [hlb]; exact hop) b⟩
    by_cases hr : s.headstack ≥ 0 ∧ (s.stack s.headstack).debut = j + 1 - 1
    · rw [if_pos hr, if_pos (hre.1 hr)]
      exact suite _ _ (j + 1) ⟨o1, o2, o3, o4, o5, rfl⟩ rfl (by show phi texte j + 1 = _; rw [hp1]) (by omega)
        rfl rfl (le_refl _)
    rw [if_neg hr, if_neg (fun h => hr (hre.2 h))]
    by_cases hov : s.headstack ≥ STACK_MAX
    · rw [if_pos hov, if_pos hov]
      exact ⟨rfl, ⟨o1, o2, o3, o4, o5, rfl⟩⟩
    rw [if_neg hov, if_neg hov]
    show simule texte _ _
    refine ⟨⟨o1, o2, o3, o4, o5, rfl⟩,
      by show j + 1 ≤ _; omega, by show phi texte j + 1 = phi texte (j + 1); rw [hp1], ?_⟩
    intro k hk0 hk
    have hk' : k ≤ s.headstack + 1 := hk
    show (ecrire s.stack (s.headstack + 1) ⟨j + 1 - 1, q⟩ k).debut < texte.length ∧
      car texte (ecrire s.stack (s.headstack + 1) ⟨j + 1 - 1, q⟩ k).debut ∈ ops ∧
      (ecrire s'.stack (s.headstack + 1) ⟨phi texte j + 1 - 1, phi texte q⟩ k).debut =
        phi texte (ecrire s.stack (s.headstack + 1) ⟨j + 1 - 1, q⟩ k).debut
    rw [Nat.add_sub_cancel, Nat.add_sub_cancel]
    by_cases hkh : k = s.headstack + 1
    · rw [hkh, ecrire_meme, ecrire_meme]
      exact ⟨hjl, by rw [hlb]; exact hop, rfl⟩
    · rw [ecrire_autre _ _ _ _ hkh, ecrire_autre _ _ _ _ hkh]
      exact hF k hk0 (by omega)
  · -- a loop-close
    rw [hrb, switch_rbra_idx, switch_rbra_idx]
    have hcell : s'.matrice s'.curseur = s.matrice s.curseur := by rw [← o1, ← o2]
    rw [hcell, ← o6]
    by_cases hneg : s.headstack < 0
    · rw [if_pos hneg, if_pos hneg]
      exact ⟨trivial, ⟨o1, o2, o3, o4, o5, rfl⟩⟩
    rw [if_neg hneg, if_neg hneg]
    have hh : 0 ≤ s.headstack := by omega
    obtain ⟨c1, c2, c3⟩ := hF _ hh (le_refl _)
    by_cases hz : s.matrice s.curseur ≠ 0
    · rw [if_pos hz, if_pos hz]
      exact suite _ _ (s.stack s.headstack).debut ⟨o1, o2, o3, o4, o5, rfl⟩ rfl
        (by show (s'.stack s.headstack).debut = _; rw [c3]) (by omega) rfl rfl (le_refl _)
    · rw [if_neg hz, if_neg hz]
      exact suite _ _ (j + 1)
        ⟨o1, o2, o3, o4, o5, rfl⟩ rfl
        (by show phi texte j + 1 = _; rw [hp1]) (by omega) rfl rfl
        (by show s.headstack - 1 ≤ s.headstack; omega)

/-- A run on a line and a run on the line without its inert characters, from
corresponding states and with the same number of turns, end the same way. -/
theorem yyparse_simule (texte fin fin' : List Nat) (hnul : NUL ∉ texte) (hnl : NL ∉ texte)
    (n : Nat) : ∀ (s s' : Etat), s.ligne = texte ++ NL :: NUL :: fin →
    s'.ligne = sansInertes texte ++ NL :: NUL :: fin' → simule texte s s' →
    memeFin (yyparse n s) (yyparse n s') := by
  induction n with
  | zero => intro s s' _ _ _; exact trivial
  | succ n ih =>
    intro s s' hl hl' hsim
    have h := tour_simule texte fin fin' hnul hnl s s' hl hl' hsim
    unfold yyparse
    cases h1 : yyparse_tour s with
    | suite u =>
      cases h2 : yyparse_tour s' with
      | suite v =>
        rw [h1, h2] at h
        exact ih u v (by rw [tour_ligne s u h1, hl]) (by rw [tour_ligne s' v h2, hl']) h
      | retour v =>
        rw [h1, h2] at h
        exact h.elim
      | fatal f v =>
        rw [h1, h2] at h
        exact h.elim
      | bloque v =>
        rw [h1, h2] at h
        exact h.elim
    | retour u =>
      cases h2 : yyparse_tour s' with
      | suite v =>
        rw [h1, h2] at h
        exact h.elim
      | retour v =>
        rw [h1, h2] at h
        exact h
      | fatal f v =>
        rw [h1, h2] at h
        exact h.elim
      | bloque v =>
        rw [h1, h2] at h
        exact h.elim
    | fatal e u =>
      cases h2 : yyparse_tour s' with
      | suite v =>
        rw [h1, h2] at h
        exact h.elim
      | retour v =>
        rw [h1, h2] at h
        exact h.elim
      | fatal f v =>
        rw [h1, h2] at h
        exact h
      | bloque v =>
        rw [h1, h2] at h
        exact h.elim
    | bloque u =>
      cases h2 : yyparse_tour s' with
      | suite v =>
        rw [h1, h2] at h
        exact h.elim
      | retour v =>
        rw [h1, h2] at h
        exact h.elim
      | fatal f v =>
        rw [h1, h2] at h
        exact h.elim
      | bloque v =>
        rw [h1, h2] at h
        exact h

/-- C12: let `texte` be the text of a line (no NUL, no end-of-line marker in
it) and let two states, with the same tape, cursor and streams, an empty
loop stack and the scan position 0, hold the one the line and the other the
line without its characters that are not operators, both ended by the
end-of-line marker and the NUL.  Then for every number of turns the two
runs of `yyparse` are both still running, or both have ended, the same way:
by `return`, by the same kind of fatal error, or in the endless loop on the
input, with the same tape, cursor, input left, output, warnings and top of
loop stack.  And when no character of the text is an operator, `yyparse`
returns at its first turn, with tape, cursor, streams and loop stack
unchanged. -/
theorem inertes_sans_effet (texte fin fin' : List Nat) (s s' : Etat) (hnul : NUL ∉ texte)
    (hnl : NL ∉ texte) (hl : s.ligne = texte ++ NL :: NUL :: fin)
    (hl' : s'.ligne = sansInertes texte ++ NL :: NUL :: fin')
    (hi : s.indexligne = 0) (hi' : s'.indexligne = 0) (hvide : s.headstack = -1)
    (hobs : memeObs s s') :
    (∀ n, memeFin (yyparse n s) (yyparse n s')) ∧
    ((∀ c, c ∈ texte → c ∉ ops) →
      ∃ s1, yyparse 1 s = some (.retour s1) ∧ memeObs s1 s ∧ s1.stack = s.stack) := by
  have hsim : simule texte s s' := by
    refine ⟨hobs, by rw [hi]; exact Nat.zero_le _, by rw [hi', hi, phi_zero], ?_⟩
    intro k h1 h2
    rw [hvide] at h2
    omega
  refine ⟨fun n => yyparse_simule texte fin fin' hnul hnl n s s' hl hl' hsim, ?_⟩
  intro hno
  have e : ∀ t : Etat, yyparse_switch 0 t = .retour t := fun _ => rfl
  rcases yylex_simule texte fin fin' hnul hnl s s' hl hl'
      (by rw [hi]; exact Nat.zero_le _) (by rw [hi', hi, phi_zero]) with
    ⟨h0, _⟩ | ⟨j, hjl, hop, _, _⟩
  · refine ⟨(yylex s).2, ?_, ?_, yylex_stack s⟩
    · simp only [yyparse, yyparse_tour, h0, e]
    · exact ⟨yylex_matrice s, yylex_curseur s, yylex_stdin s, yylex_stdout s, yylex_stderr s,
        yylex_headstack s⟩
  · exact absurd hop (hno _ (car_mem texte j hjl))

/-- C12, on the line `+ [ - ] x` and the line `+[-]`, run from the initial
state: both return, after the same number of turns, with cell 0 at 0. -/
theorem inertes_sans_effet_witness :
    sansInertes (codes "+ [ - ] x") = codes "+[-]" ∧
    memeFin (yyparse 7 (initial (codes "+ [ - ] x\n" ++ [NUL]) []))
      (yyparse 7 (initial (codes "+[-]\n" ++ [NUL]) [])) ∧
    ∃ s1, yyparse 7 (initial (codes "+[-]\n" ++ [NUL]) []) = some (.retour s1) ∧
      s1.matrice 0 = 0 :=
  ⟨by decide,
   (inertes_sans_effet (codes "+ [ - ] x") [] [] (initial (codes "+ [ - ] x\n" ++ [NUL]) [])
      (initial (codes "+[-]\n" ++ [NUL]) []) (by decide) (by decide) (by decide) (by decide)
      rfl rfl rfl ⟨rfl, rfl, rfl, rfl, rfl, rfl⟩).1 7,
   ⟨_, rfl, by decide⟩⟩

end Bfi
